import Mathlib

/-!
Verification of the configuration-parsing and scheduling core of caddy-git
(`setup.go`).  Go strings are modelled as `List Char`; Go's multiple return
values `(T, error)` become `Except Err T`; a Go runtime panic is modelled as
the distinguished error constructor `Err.goPanic`.  Machine integers
(`int`/`time.Duration`, both 64-bit) are modelled as `Int` with explicit
wrap-around where overflow is observable.
-/

set_option autoImplicit false

namespace CaddyGit

/-- A Go string, modelled as its list of characters. -/
abbrev Str := List Char

/-- Errors and panics that the modelled code can produce. -/
inductive Err where
  /-- an error returned by `net/url.Parse` -/
  | urlError (msg : Str)
  /-- `net/url.EscapeError`: a malformed percent-escape (the offending
  snippet of up to three characters) -/
  | escapeError (snippet : Str)
  /-- `fmt.Errorf("invalid git url %s", u)` from either sanitizer -/
  | invalidGitURL (u : Str)
  /-- a Go runtime panic (index / slice out of range) -/
  | goPanic (msg : Str)
  /-- `c.ArgErr()` from the directive parser -/
  | argErr
  /-- `c.Errf(...)`, e.g. for an unknown hook type -/
  | errf (msg : Str)
  /-- `fmt.Errorf("private repository not yet supported on Windows")` -/
  | unsupportedPlatform
  /-- a pass-through error from the external `Init` collaborator -/
  | initFailed (msg : Str)
  /-- a pass-through error from the external `Repo.Prepare` collaborator -/
  | prepareFailed (msg : Str)
deriving DecidableEq

/-! ## Go string primitives -/

/-- `strings.HasPrefix s pre`: does `s` begin with `pre`? -/
def beginsWith : Str → Str → Bool
  | _, [] => true
  | [], _ :: _ => false
  | x :: xs, y :: ys => x = y && beginsWith xs ys

/-- `strings.HasSuffix s p`: does `s` end with `p`? -/
def finishesWith (s p : Str) : Bool :=
  beginsWith s.reverse p.reverse

/-- Index of the first occurrence of character `c` in `s` (`strings.Index`,
returning `none` instead of Go's `-1`). -/
def charIdx (c : Char) : Str → Option Nat
  | [] => none
  | x :: xs => if x = c then some 0 else (charIdx c xs).map (· + 1)

/-- `strings.Index s (string c)` with Go's `-1`-for-missing convention. -/
def goIndexChar (s : Str) (c : Char) : Int :=
  match charIdx c s with
  | none => -1
  | some i => i

/-- The `split` helper of `net/url`: split at the first occurrence of `c`;
`cutc` says whether the separator is dropped from the second part. -/
def goSplit (s : Str) (c : Char) (cutc : Bool) : Str × Str :=
  match charIdx c s with
  | none => (s, [])
  | some i => (s.take i, if cutc then s.drop (i + 1) else s.drop i)

/-- `strings.Split s (string sep)`: split on every occurrence of `sep`.
`strings.Split "" sep = [""]`, matching Go. -/
def splitOnChar (s : Str) (sep : Char) : List Str :=
  match s with
  | [] => [[]]
  | c :: cs =>
    match splitOnChar cs sep with
    | [] => [[]]
    | r :: rs => if c = sep then [] :: r :: rs else (c :: r) :: rs

/-- The whitespace test of `strings.TrimSpace` (ASCII whitespace plus the
two Latin-1 spaces; other Unicode space classes do not occur in URLs). -/
def isSpaceChar (c : Char) : Bool :=
  c = ' ' || c = '\t' || c = '\n' || c = '\x0b' || c = '\x0c' || c = '\r' ||
  c = '\x85' || c = '\xa0'

/-- `strings.TrimSpace`: drop whitespace from both ends. -/
def trimSpace (s : Str) : Str :=
  ((s.dropWhile isSpaceChar).reverse.dropWhile isSpaceChar).reverse

/-- ASCII lower-casing (`strings.ToLower`; URL schemes are ASCII). -/
def toLowerStr (s : Str) : Str :=
  s.map Char.toLower

/-- Go string slicing `s[i:]`: panics when `i > len(s)`. -/
def goStrFrom (s : Str) (i : Nat) : Except Err Str :=
  if i ≤ s.length then .ok (s.drop i)
  else .error (.goPanic "slice bounds out of range".data)

/-- `net/url.ishex`. -/
def isHexDig (c : Char) : Bool :=
  ('0' ≤ c && c ≤ '9') || ('a' ≤ c && c ≤ 'f') || ('A' ≤ c && c ≤ 'F')

/-- The value of a hex digit (`net/url.unhex`). -/
def hexVal (c : Char) : Nat :=
  if '0' ≤ c && c ≤ '9' then c.toNat - '0'.toNat
  else if 'a' ≤ c && c ≤ 'f' then c.toNat - 'a'.toNat + 10
  else c.toNat - 'A'.toNat + 10

/-- `net/url.unescape` for the path and user-info modes (`+` is only
special in the query mode, which the callers never use): decode every
`%XX` percent-escape, and fail with `EscapeError` — carrying the malformed
snippet of up to three characters — when a `%` is not followed by two hex
digits. -/
def unescape : Str → Except Err Str
  | [] => .ok []
  | c :: cs =>
    if c = '%' then
      match cs with
      | a :: b :: rest =>
        if isHexDig a && isHexDig b then
          match unescape rest with
          | .ok t => .ok (Char.ofNat (16 * hexVal a + hexVal b) :: t)
          | .error e => .error e
        else .error (.escapeError ['%', a, b])
      | _ => .error (.escapeError ('%' :: cs))
    else
      match unescape cs with
      | .ok t => .ok (c :: t)
      | .error e => .error e

/-! ## The `net/url.Parse` model

The model follows `net/url.parse(rawurl, viaRequest := false)` of the Go
release the plugin was written against (before Go rejected a colon in the
first path segment), restricted to what the two callers read: `Scheme`,
`User.Username()`, `Host` and `Path`.  `RawQuery`, `Fragment` and `Opaque`
are split off exactly as in Go but then dropped, because neither caller
reads them (though a malformed escape in a non-empty fragment still makes
`Parse` fail, which is modelled).  Percent-escapes are decoded by
`unescape` exactly where Go decodes them — in the user-info and in the
path; the host is not unescaped in that Go release.  IPv6 host literals
and host-character validation are not modelled (that release's
`parseAuthority` performs no host validation either). -/

/-- The result of `url.Parse`, restricted to the fields the callers read.
`user` is the result of `User.Username()` (`none` when `URL.User == nil`). -/
structure URL where
  scheme : Str
  user : Option Str
  host : Str
  path : Str
deriving DecidableEq

/-- Find the colon ending a valid scheme, per `net/url.getscheme`:
`none` when the URL carries no scheme, an error for an empty scheme. -/
def schemeColon : Str → Nat → Except Err (Option Nat)
  | [], _ => .ok none
  | c :: cs, i =>
    if ('a' ≤ c && c ≤ 'z') || ('A' ≤ c && c ≤ 'Z') then
      schemeColon cs (i + 1)
    else if ('0' ≤ c && c ≤ '9') || c = '+' || c = '-' || c = '.' then
      (if i = 0 then .ok none else schemeColon cs (i + 1))
    else if c = ':' then
      (if i = 0 then .error (.urlError "missing protocol scheme".data)
       else .ok (some i))
    else .ok none

/-- Last occurrence of `c` in `s` (`strings.LastIndex`). -/
def lastIdxOf (s : Str) (c : Char) : Option Nat :=
  match charIdx c s.reverse with
  | none => none
  | some i => some (s.length - 1 - i)

/-- `net/url.parseAuthority`: split the authority into user-info and host
at the last `@`; `Username()` is the decoded user-info up to the first `:`
(when a `:` is present the username and password are unescaped separately,
and either failure fails the parse).  The host is not unescaped. -/
def parseAuthority (auth : Str) : Except Err (Option Str × Str) :=
  match lastIdxOf auth '@' with
  | none => .ok (none, auth)
  | some i =>
    let userinfo := auth.take i
    let host := auth.drop (i + 1)
    match charIdx ':' userinfo with
    | none =>
      match unescape userinfo with
      | .error e => .error e
      | .ok n => .ok (some n, host)
    | some j =>
      match unescape (userinfo.take j) with
      | .error e => .error e
      | .ok n =>
        match unescape (userinfo.drop (j + 1)) with
        | .error e => .error e
        | .ok _ => .ok (some n, host)

/-- The authority/path phase of `net/url.parse` (after the query split);
the path is percent-decoded (`unescape(rest, encodePath)`). -/
def authorityAndPath (scheme rest1 : Str) : Except Err URL :=
  if (scheme ≠ [] ∨ beginsWith rest1 "///".data = false) ∧
      beginsWith rest1 "//".data = true then
    match parseAuthority (goSplit (rest1.drop 2) '/' false).1 with
    | .error e => .error e
    | .ok (user, host) =>
      match unescape (goSplit (rest1.drop 2) '/' false).2 with
      | .error e => .error e
      | .ok p => .ok { scheme, user, host, path := p }
  else
    match unescape rest1 with
    | .error e => .error e
    | .ok p => .ok { scheme, user := none, host := [], path := p }

/-- The phase of `net/url.parse` after the scheme is split off: drop the
query, then handle rootless (opaque) URLs — whose `Path` stays empty; the
`Opaque` field that receives the rest is never read by the callers — and
otherwise parse authority and path. -/
def afterScheme (scheme rest0 : Str) : Except Err URL :=
  if beginsWith (goSplit rest0 '?' true).1 "/".data = false ∧ scheme ≠ [] then
    .ok { scheme, user := none, host := [], path := [] }
  else authorityAndPath scheme (goSplit rest0 '?' true).1

/-- `net/url.parse(raw, viaRequest := false)` (fragment already removed). -/
def urlParseInner (raw : Str) : Except Err URL :=
  if raw = "*".data then
    .ok { scheme := [], user := none, host := [], path := "*".data }
  else
    match schemeColon raw 0 with
    | .error e => .error e
    | .ok none => afterScheme [] raw
    | .ok (some i) => afterScheme (toLowerStr (raw.take i)) (raw.drop (i + 1))

/-- `net/url.Parse`: split off the fragment, then parse; a non-empty
fragment is unescaped (the result is dropped, but a malformed escape in it
still fails the whole parse). -/
def urlParse (raw : Str) : Except Err URL :=
  match urlParseInner (goSplit raw '#' true).1 with
  | .error e => .error e
  | .ok u =>
    match (goSplit raw '#' true).2 with
    | [] => .ok u
    | frag =>
      match unescape frag with
      | .error e => .error e
      | .ok _ => .ok u

/-! ## The URL normalizers of `setup.go` -/

/-- Append the `.git` suffix if missing (the tail of both sanitizers). -/
def ensureDotGit (s : Str) : Str :=
  if finishesWith s ".git".data then s else s ++ ".git".data

/-- The SCP-style rewrite inside `sanitizeHTTP`: a URL with no host whose
path begins `git@` has the prefix stripped and is split at the first `:`
into host and path; no colon is an `invalid git url` error. -/
def scpAdjust (u : URL) (repoURL : Str) : Except Err URL :=
  if u.host = [] ∧ beginsWith u.path "git@".data = true then
    match charIdx ':' (u.path.drop 4) with
    | none => .error (.invalidGitURL repoURL)
    | some i =>
      .ok { u with host := (u.path.drop 4).take i,
                   path := '/' :: (u.path.drop 4).drop (i + 1) }
  else .ok u

/-- The HTTPS reconstruction inside `sanitizeHTTP`: keep an explicit user,
else embed the first path segment as user for `bitbucket.org` (Go indexes
`segments[1]`, a runtime panic when the path has no `/`), else plain. -/
def buildHTTPS (u : URL) : Except Err Str :=
  match u.user with
  | some name => .ok ("https://".data ++ name ++ '@' :: (u.host ++ u.path))
  | none =>
    if u.host = "bitbucket.org".data then
      match (splitOnChar u.path '/').get? 1 with
      | some seg => .ok ("https://".data ++ seg ++ '@' :: (u.host ++ u.path))
      | none => .error (.goPanic "index out of range".data)
    else .ok ("https://".data ++ u.host ++ u.path)

/-- `sanitizeHTTP` of `setup.go`: parse, rewrite SCP-style URLs, rebuild as
`https://`, ensure the `.git` suffix; returns the URL and the host. -/
def sanitizeHTTP (repoURL : Str) : Except Err (Str × Str) :=
  match urlParse repoURL with
  | .error e => .error e
  | .ok u0 =>
    match scpAdjust u0 repoURL with
    | .error e => .error e
    | .ok u =>
      match buildHTTPS u with
      | .error e => .error e
      | .ok s => .ok (ensureDotGit s, u.host)

/-- The first phase of `sanitizeGit` of `setup.go`, applied to the trimmed
URL: accept SCP-style SSH form as-is (colon no earlier than in `git@a:`),
else rewrite an http(s) URL into SSH form (Go slices `url.Path[1:]`, a
runtime panic when the path is empty), else fail with `invalid git url`. -/
def sanitizeGitStep1 (t : Str) : Except Err Str :=
  if beginsWith t "git@".data = false ∨ goIndexChar t ':' < 6 then
    match urlParse t with
    | .ok u =>
      if beginsWith u.scheme "http".data = true then
        match goStrFrom u.path 1 with
        | .ok tl => .ok ("git@".data ++ u.host ++ ':' :: tl)
        | .error e => .error e
      else .error (.invalidGitURL t)
    | .error _ => .error (.invalidGitURL t)
  else .ok t

/-- `sanitizeGit` of `setup.go`: trim and run the first phase, then extract
the host between `git@` and the first following `:` (Go would slice with
index `-1` and panic if no colon followed, which no phase-one branch can
produce) and ensure the `.git` suffix. -/
def sanitizeGit (repoURL0 : Str) : Except Err (Str × Str) :=
  match sanitizeGitStep1 (trimSpace repoURL0) with
  | .error e => .error e
  | .ok r1 =>
    match charIdx ':' (r1.drop 4) with
    | none => .error (.goPanic "slice bounds out of range".data)
    | some i => .ok (ensureDotGit r1, (r1.drop 4).take i)

/-! ## The directive parser of `setup.go`

The token stream delivered by the host server's dispenser is modelled as a
list of directive blocks: the positional arguments of the `git` line
(`c.RemainingArgs()`), then the lines between the braces.  `c.NextBlock()`
walks the block token by token, `c.NextArg()` only advances within the
current line, and `c.RemainingArgs()` takes the rest of the line, so the
parser below carries a cursor `(cur, lines)`: the unconsumed tail of the
current line and the remaining lines. -/

/-- One directive block: `git <args...> { <lines...> }`. -/
structure Block where
  args : List Str
  body : List (List Str)
deriving DecidableEq

/-- `repo.Hook` — webhook trigger configuration. -/
structure HookCfg where
  url : Str
  secret : Str
  type : Str
deriving DecidableEq

/-- A post-sync action built by `NewThen` (`long := false`) or
`NewLongThen` (`long := true`); execution is external. -/
structure ThenCmd where
  command : Str
  args : List Str
  long : Bool
deriving DecidableEq

/-- `Repo` — one configured repository descriptor.  `interval` is a
`time.Duration`, i.e. a 64-bit count of nanoseconds, modelled as `Int`
with explicit wrap-around where it is written. -/
structure Repo where
  url : Str
  host : Str
  path : Str
  branch : Str
  keyPath : Str
  interval : Int
  hook : HookCfg
  thenCmds : List ThenCmd
deriving DecidableEq

/-- `DefaultInterval = time.Hour * 1`, in nanoseconds. -/
def defaultInterval : Int := 3600 * 1000000000

/-- Interpret a signed 64-bit wrap-around (Go's defined overflow). -/
def wrap64 (x : Int) : Int :=
  (x + 2 ^ 63) % 2 ^ 64 - 2 ^ 63

/-- `time.Duration(t) * time.Second` on 64-bit integers. -/
def durationSeconds (t : Int) : Int :=
  wrap64 (t * 1000000000)

/-- All-decimal-digits value of a string, `none` if empty or non-digit. -/
def decDigits : Str → Option Nat
  | [] => none
  | [c] => if '0' ≤ c ∧ c ≤ '9' then some (c.toNat - '0'.toNat) else none
  | c :: cs =>
    if '0' ≤ c ∧ c ≤ '9' then
      (decDigits cs).map (fun n => (c.toNat - '0'.toNat) * 10 ^ cs.length + n)
    else none

/-- `strconv.Atoi`: the parsed `int` (64-bit) and whether an error
occurred.  On a syntax error the value is `0`; on a range error it is the
clamped boundary (`strconv.ParseInt` returns the maximum magnitude value
together with `ErrRange`). -/
def goAtoi (s : Str) : Int × Bool :=
  let (neg, ds) : Bool × Str :=
    match s with
    | '-' :: cs => (true, cs)
    | '+' :: cs => (false, cs)
    | _ => (false, s)
  match decDigits ds with
  | none => (0, true)
  | some n =>
    let v : Int := if neg then -(n : Int) else (n : Int)
    if v > 2 ^ 63 - 1 then (2 ^ 63 - 1, true)
    else if v < -2 ^ 63 then (-2 ^ 63, true)
    else (v, false)

/-- The static context of a parse run: the configuration root and platform,
plus the external collaborators the parser consults while reading
directives — the registered webhook handler types (`handlers`, defined in
the webhook component) and `filepath.Clean` (Go standard library), both
treated as abstract pure functions. -/
structure Ctx where
  root : Str
  goos : Str
  sep : Char
  knownHookTypes : Str → Bool
  cleanPath : Str → Str

/-- The body of one `case` arm of the sub-directive `switch`, walking one
line of the block.  `c.NextBlock()` advances token by token and
`c.NextArg()` only advances within the current line, so each labelled
directive takes its value arguments from the rest of its line, and leftover
tokens on the line are seen again as the next label.  No arm ever consumes
tokens beyond its own line (`then`/`then_long` take the whole rest of the
line via `c.RemainingArgs()`), so the block loop factors into this per-line
walk followed by `applyDirs` over the remaining lines. -/
def applyLine (ctx : Ctx) : Repo → List Str → Except Err Repo
  | r, [] => .ok r
  | r, label :: rest =>
    if label = "repo".data then
      match rest with
      | [] => .error .argErr
      | v :: rest2 => applyLine ctx { r with url := v } rest2
    else if label = "path".data then
      match rest with
      | [] => .error .argErr
      | v :: rest2 =>
        applyLine ctx
          { r with path := ctx.cleanPath (ctx.root ++ ctx.sep :: v) } rest2
    else if label = "branch".data then
      match rest with
      | [] => .error .argErr
      | v :: rest2 => applyLine ctx { r with branch := v } rest2
    else if label = "key".data then
      match rest with
      | [] => .error .argErr
      | v :: rest2 => applyLine ctx { r with keyPath := v } rest2
    else if label = "interval".data then
      match rest with
      | [] => .error .argErr
      | v :: rest2 =>
        applyLine ctx
          (if (goAtoi v).1 > 0 then
            { r with interval := durationSeconds (goAtoi v).1 }
          else r) rest2
    else if label = "hook".data then
      match rest with
      | [] => .error .argErr
      | v :: rest2 =>
        match rest2 with
        | s :: rest3 =>
          applyLine ctx
            { r with hook := { r.hook with url := v, secret := s } } rest3
        | [] => .ok { r with hook := { r.hook with url := v } }
    else if label = "hook_type".data then
      match rest with
      | [] => .error .argErr
      | v :: rest2 =>
        if ctx.knownHookTypes v then
          applyLine ctx { r with hook := { r.hook with type := v } } rest2
        else .error (.errf ("invalid hook type ".data ++ v))
    else if label = "then".data then
      match rest with
      | [] => .error .argErr
      | v :: rest2 => .ok { r with thenCmds := r.thenCmds ++ [⟨v, rest2, false⟩] }
    else if label = "then_long".data then
      match rest with
      | [] => .error .argErr
      | v :: rest2 => .ok { r with thenCmds := r.thenCmds ++ [⟨v, rest2, true⟩] }
    else .error .argErr

/-- The `for c.NextBlock()` loop: walk the block's lines in order,
threading the descriptor through `applyLine`; the first error aborts. -/
def applyDirs (ctx : Ctx) : Repo → List (List Str) → Except Err Repo
  | r, [] => .ok r
  | r, l :: ls =>
    match applyLine ctx r l with
    | .error e => .error e
    | .ok r2 => applyDirs ctx r2 ls

/-- `&Repo{Branch: "master", Interval: DefaultInterval, Path: c.Root}` —
the defaults every block starts from. -/
def defaultRepo (ctx : Ctx) : Repo :=
  { url := [], host := [], path := ctx.root, branch := "master".data,
    keyPath := [], interval := defaultInterval,
    hook := { url := [], secret := [], type := [] }, thenCmds := [] }

/-- The descriptor a block starts from: the defaults, then the 0–2
positional arguments (`switch len(args)` with its `fallthrough`; any other
count falls through silently). -/
def initialRepo (ctx : Ctx) (b : Block) : Repo :=
  match b.args with
  | [a] => { (defaultRepo ctx) with url := a }
  | [a, p] =>
    { (defaultRepo ctx) with
      url := a,
      path := ctx.cleanPath (ctx.root ++ ctx.sep :: p) }
  | _ => defaultRepo ctx

/-- One iteration of `parse`'s `for c.Next()` loop: read the block, fail on
an empty URL, normalize, then run the external `Init` and `Repo.Prepare`
collaborators, whose outcomes are supplied as `initRes` and `prepRes`.  In
the source the sanitizer runs first and the Windows check sits between the
`sanitizeGit` call and the `if err != nil` check of its error: a
`sanitizeGit` panic (`goPanic`, which unwinds at once) therefore pre-empts
the platform check, while an ordinary sanitizer error is pre-empted by it.
In the keyless branch the Windows condition is false and the distinction
is vacuous. -/
def parseRepoBlock (ctx : Ctx) (initRes : Except Err Unit)
    (prepRes : Repo → Except Err Unit) (b : Block) : Except Err Repo :=
  match applyDirs ctx (initialRepo ctx b) b.body with
  | .error e => .error e
  | .ok r =>
    if r.url = [] then .error .argErr
    else
      match (if r.keyPath = [] then sanitizeHTTP r.url else sanitizeGit r.url)
        with
      | .error (.goPanic m) => .error (.goPanic m)
      | .error e =>
        if r.keyPath ≠ [] ∧ ctx.goos = "windows".data then
          .error .unsupportedPlatform
        else .error e
      | .ok (u, h) =>
        if r.keyPath ≠ [] ∧ ctx.goos = "windows".data then
          .error .unsupportedPlatform
        else
          match initRes with
          | .error e => .error e
          | .ok _ =>
            match prepRes { r with url := u, host := h } with
            | .error e => .error e
            | .ok _ => .ok { r with url := u, host := h }

/-- `parse` of `setup.go`: process the blocks in order, appending each
fully-built descriptor; the first error aborts the whole parse. -/
def parse (ctx : Ctx) (initRes : Except Err Unit)
    (prepRes : Repo → Except Err Unit) : List Block → Except Err (List Repo)
  | [] => .ok []
  | b :: bs =>
    match parseRepoBlock ctx initRes prepRes b with
    | .error e => .error e
    | .ok r =>
      match parse ctx initRes prepRes bs with
      | .error e => .error e
      | .ok rs => .ok (r :: rs)

/-! ## The activation planner of `Setup` -/

/-- `repo.Hook.Url != ""`. -/
def hasHook (r : Repo) : Bool :=
  r.hook.url ≠ []

/-- The two shapes of startup closure `Setup` builds. -/
inductive StartupFn where
  /-- webhook mode: `func() error { return repo.Pull() }` -/
  | hookPull (r : Repo)
  /-- polling mode: `func() error { Start(repo); return repo.Pull() }` -/
  | startAndPull (r : Repo)
deriving DecidableEq

/-- The `for i := range git` loop of `Setup`: accumulate the webhook
targets (`hookRepos`) and the startup closures (`startupFuncs`). -/
def setupLists (repos : List Repo) : List Repo × List StartupFn :=
  repos.foldl
    (fun acc r =>
      if hasHook r then (acc.1 ++ [r], acc.2 ++ [.hookPull r])
      else (acc.1, acc.2 ++ [.startAndPull r]))
    ([], [])

/-- Observable effects of running a startup closure. -/
inductive Eff where
  /-- a call to the external polling collaborator `Start(repo)` -/
  | start (r : Repo)
  /-- a call to the external `repo.Pull()` -/
  | pull (r : Repo)
deriving DecidableEq

/-- Run a startup closure: the effect trace in call order, and the value it
returns (always the result of its `repo.Pull()` call, whose outcome per
repository is the oracle `pullRes`). -/
def runStartupFn (pullRes : Repo → Option Err) :
    StartupFn → List Eff × Option Err
  | .hookPull r => ([.pull r], pullRes r)
  | .startAndPull r => ([.start r, .pull r], pullRes r)

/-! ## Once-per-server-block registration (claim C2)

Modelled from the spec: `c.OncePerServerBlock` and `c.Startup` belong to
the hosting server's controller, which is outside this repository.  Per the
spec, startup actions "are registered with the hosting environment's
startup-action list, guarded so that the registration itself executes
exactly once per distinct configuration context even if the same context
object is encountered multiple times during configuration evaluation".
Contexts sharing one configuration block are identified by the block's
identity. -/

/-- Modelled from the spec: the host's registration state — the startup
list and the set of server blocks whose guarded function has run. -/
structure OnceState where
  executed : List Nat
  startup : List StartupFn
deriving DecidableEq

/-- Modelled from the spec: `c.OncePerServerBlock f` runs `f` only if no
evaluation for the same server block has run it before. -/
def oncePerServerBlock (blockId : Nat) (f : OnceState → OnceState)
    (st : OnceState) : OnceState :=
  if blockId ∈ st.executed then st
  else f { st with executed := blockId :: st.executed }

/-- The registration step of `Setup`: append `startupFuncs` to the host's
startup list, guarded by `OncePerServerBlock`. -/
def setupRegister (blockId : Nat) (fns : List StartupFn)
    (st : OnceState) : OnceState :=
  oncePerServerBlock blockId
    (fun s => { s with startup := s.startup ++ fns }) st

/-- Evaluate `Setup`'s registration once per logical server context; each
context carries the identity of the server block it was evaluated from. -/
def runContexts (fns : List StartupFn) : List Nat → OnceState → OnceState
  | [], st => st
  | b :: bs, st => runContexts fns bs (setupRegister b fns st)

/-! ## Lemmas about the string primitives -/

theorem beginsWith_nil (s : Str) : beginsWith s [] = true := by
  cases s <;> rfl

theorem beginsWith_append (p t : Str) : beginsWith (p ++ t) p = true := by
  induction p with
  | nil => simpa using beginsWith_nil t
  | cons x xs ih => simp [beginsWith, ih]

theorem beginsWith_eq_append (s p : Str) (h : beginsWith s p = true) :
    s = p ++ s.drop p.length := by
  induction p generalizing s with
  | nil => simp
  | cons y ys ih =>
    cases s with
    | nil => simp [beginsWith] at h
    | cons x xs =>
      simp only [beginsWith, Bool.and_eq_true, decide_eq_true_eq] at h
      obtain ⟨rfl, h2⟩ := h
      rw [List.cons_append, List.length_cons, List.drop_succ_cons]
      exact congrArg (List.cons x) (ih xs h2)

theorem beginsWith_of_beginsWith_append (s p t : Str)
    (h : beginsWith s p = true) : beginsWith (s ++ t) p = true := by
  rw [beginsWith_eq_append s p h, List.append_assoc]
  exact beginsWith_append _ _

theorem beginsWith_ne_nil (s : Str) (c : Char) (p : Str)
    (h : beginsWith s (c :: p) = true) : s ≠ [] := by
  cases s with
  | nil => simp [beginsWith] at h
  | cons x xs => exact List.cons_ne_nil x xs

theorem finishesWith_append (t p : Str) : finishesWith (t ++ p) p = true := by
  unfold finishesWith
  rw [List.reverse_append]
  exact beginsWith_append _ _

theorem ensureDotGit_finishes (s : Str) :
    finishesWith (ensureDotGit s) ".git".data = true := by
  unfold ensureDotGit
  split
  · assumption
  · exact finishesWith_append _ _

theorem ensureDotGit_of_finishes (s : Str)
    (h : finishesWith s ".git".data = true) : ensureDotGit s = s := by
  unfold ensureDotGit
  rw [if_pos h]

theorem beginsWith_ensureDotGit (s p : Str) (h : beginsWith s p = true) :
    beginsWith (ensureDotGit s) p = true := by
  unfold ensureDotGit
  split
  · exact h
  · exact beginsWith_of_beginsWith_append _ _ _ h

theorem bw_append_https_not_git (t : Str) :
    beginsWith ("https://".data ++ t) "git@".data = false := rfl

theorem bw_append_git_not_https (t : Str) :
    beginsWith ("git@".data ++ t) "https://".data = false := rfl

theorem bw_slash_not_git (t : Str) :
    beginsWith ('/' :: t) "git@".data = false := rfl

theorem charIdx_eq_none (c : Char) (s : Str) (h : c ∉ s) :
    charIdx c s = none := by
  induction s with
  | nil => rfl
  | cons x xs ih =>
    simp only [List.mem_cons, not_or] at h
    have hx : ¬x = c := fun hxc => h.1 hxc.symm
    simp [charIdx, hx, ih h.2]

theorem not_mem_of_charIdx_eq_none (c : Char) (s : Str)
    (h : charIdx c s = none) : c ∉ s := by
  induction s with
  | nil => exact List.not_mem_nil c
  | cons x xs ih =>
    by_cases hx : x = c
    · simp [charIdx, hx] at h
    · simp only [charIdx, if_neg hx, Option.map_eq_none'] at h
      simp only [List.mem_cons, not_or]
      exact ⟨fun hcx => hx hcx.symm, ih h⟩

theorem charIdx_take (c : Char) (s : Str) :
    ∀ i, charIdx c s = some i → c ∉ s.take i := by
  induction s with
  | nil => intro i h; cases h
  | cons x xs ih =>
    intro i h
    by_cases hx : x = c
    · simp only [charIdx, if_pos hx] at h
      cases h
      exact List.not_mem_nil c
    · simp only [charIdx, if_neg hx, Option.map_eq_some'] at h
      obtain ⟨j, hj, rfl⟩ := h
      simp only [List.take_succ_cons, List.mem_cons, not_or]
      exact ⟨fun hcx => hx hcx.symm, ih j hj⟩

theorem charIdx_drop (c : Char) (s : Str) :
    ∀ i, charIdx c s = some i → s.drop i = c :: s.drop (i + 1) := by
  induction s with
  | nil => intro i h; cases h
  | cons x xs ih =>
    intro i h
    by_cases hx : x = c
    · simp only [charIdx, if_pos hx] at h
      cases h
      simp [hx]
    · simp only [charIdx, if_neg hx, Option.map_eq_some'] at h
      obtain ⟨j, hj, rfl⟩ := h
      simpa using ih j hj

theorem charIdx_append_self (c : Char) (xs ys : Str) (h : c ∉ xs) :
    charIdx c (xs ++ c :: ys) = some xs.length := by
  induction xs with
  | nil => simp [charIdx]
  | cons x xt ih =>
    simp only [List.mem_cons, not_or] at h
    have hx : ¬x = c := fun hxc => h.1 hxc.symm
    simp [charIdx, hx, ih h.2]

theorem take_len_append (xs ys : Str) : (xs ++ ys).take xs.length = xs := by
  induction xs with
  | nil => rfl
  | cons x xt ih => simp [ih]

theorem drop_len_append (xs ys : Str) : (xs ++ ys).drop xs.length = ys := by
  induction xs with
  | nil => rfl
  | cons x xt ih => simp [ih]

theorem mem_of_mem_take {c : Char} (s : Str) (n : Nat) (h : c ∈ s.take n) :
    c ∈ s :=
  List.take_subset n s h

theorem mem_of_mem_drop {c : Char} (s : Str) (n : Nat) (h : c ∈ s.drop n) :
    c ∈ s :=
  List.drop_subset n s h

theorem goSplit_of_not_mem (s : Str) (c : Char) (b : Bool) (h : c ∉ s) :
    goSplit s c b = (s, []) := by
  unfold goSplit
  rw [charIdx_eq_none c s h]

theorem goSplit_fst_not_mem (s : Str) (c : Char) (b : Bool) :
    c ∉ (goSplit s c b).1 := by
  unfold goSplit
  cases hc : charIdx c s with
  | none => exact not_mem_of_charIdx_eq_none c s hc
  | some i => exact charIdx_take c s i hc

theorem goSplit_fst_sub (s : Str) (c : Char) (b : Bool) :
    (goSplit s c b).1 ⊆ s := by
  unfold goSplit
  cases hc : charIdx c s with
  | none => exact fun a ha => ha
  | some i => exact List.take_subset i s

theorem goSplit_snd_sub (s : Str) (c : Char) (b : Bool) :
    (goSplit s c b).2 ⊆ s := by
  unfold goSplit
  cases hc : charIdx c s with
  | none => exact List.nil_subset _
  | some i => cases b <;> exact List.drop_subset _ _

theorem goSplit_snd_shape (s : Str) (c : Char) :
    (goSplit s c false).2 = [] ∨ ∃ t, (goSplit s c false).2 = c :: t := by
  unfold goSplit
  cases hc : charIdx c s with
  | none => exact Or.inl rfl
  | some i => exact Or.inr ⟨s.drop (i + 1), by simp [charIdx_drop c s i hc]⟩

/-- The first segment of `t` up to the separator `c` (the head that
`strings.Split` produces). -/
def firstSegBy (c : Char) (t : Str) : Str :=
  match charIdx c t with
  | none => t
  | some k => t.take k

theorem splitOnChar_cons (y c : Char) (ys r : Str) (rs : List Str)
    (hs : splitOnChar ys c = r :: rs) :
    splitOnChar (y :: ys) c =
      if y = c then [] :: r :: rs else (y :: r) :: rs := by
  unfold splitOnChar
  rw [hs]

theorem splitOnChar_ne_nil (s : Str) (c : Char) : splitOnChar s c ≠ [] := by
  induction s with
  | nil => exact List.cons_ne_nil _ _
  | cons x xs ih =>
    cases hs : splitOnChar xs c with
    | nil => exact absurd hs ih
    | cons r rs =>
      rw [splitOnChar_cons x c xs r rs hs]
      by_cases hx : x = c <;> simp [hx]

theorem splitOnChar_head (s : Str) (c : Char) :
    (splitOnChar s c).head? = some (firstSegBy c s) := by
  induction s with
  | nil => rfl
  | cons x xs ih =>
    cases hs : splitOnChar xs c with
    | nil => exact absurd hs (splitOnChar_ne_nil xs c)
    | cons r rs =>
      rw [splitOnChar_cons x c xs r rs hs]
      rw [hs] at ih
      simp only [List.head?] at ih
      by_cases hx : x = c
      · subst hx
        simp only [if_pos rfl, List.head?]
        unfold firstSegBy
        simp [charIdx]
      · simp only [if_neg hx, List.head?]
        unfold firstSegBy at ih ⊢
        simp only [charIdx, if_neg hx]
        cases hi : charIdx c xs with
        | none =>
          rw [hi] at ih
          simpa using ih
        | some k =>
          rw [hi] at ih
          simpa using ih

theorem splitOnChar_pieces_not_mem (s : Str) (c : Char) :
    ∀ x ∈ splitOnChar s c, c ∉ x := by
  induction s with
  | nil =>
    intro x hx
    simp only [splitOnChar, List.mem_singleton] at hx
    subst hx
    exact List.not_mem_nil c
  | cons y ys ih =>
    intro x hx
    cases hs : splitOnChar ys c with
    | nil => exact absurd hs (splitOnChar_ne_nil ys c)
    | cons r rs =>
      rw [splitOnChar_cons y c ys r rs hs] at hx
      by_cases hy : y = c
      · rw [if_pos hy] at hx
        rcases List.mem_cons.mp hx with rfl | hx2
        · exact List.not_mem_nil c
        · exact ih x (hs ▸ hx2)
      · rw [if_neg hy] at hx
        rcases List.mem_cons.mp hx with rfl | hx2
        · intro hc
          rcases List.mem_cons.mp hc with rfl | hc2
          · exact hy rfl
          · exact ih r (hs ▸ List.mem_cons_self r rs) hc2
        · exact ih x (hs ▸ List.mem_cons_of_mem r hx2)

theorem splitOnChar_pieces_sub (s : Str) (c : Char) :
    ∀ x ∈ splitOnChar s c, x ⊆ s := by
  induction s with
  | nil =>
    intro x hx
    simp only [splitOnChar, List.mem_singleton] at hx
    subst hx
    exact List.nil_subset _
  | cons y ys ih =>
    intro x hx
    cases hs : splitOnChar ys c with
    | nil => exact absurd hs (splitOnChar_ne_nil ys c)
    | cons r rs =>
      rw [splitOnChar_cons y c ys r rs hs] at hx
      by_cases hy : y = c
      · rw [if_pos hy] at hx
        rcases List.mem_cons.mp hx with rfl | hx2
        · exact List.nil_subset _
        · exact List.Subset.trans (ih x (hs ▸ hx2)) (List.subset_cons_self y ys)
      · rw [if_neg hy] at hx
        rcases List.mem_cons.mp hx with rfl | hx2
        · intro a ha
          rcases List.mem_cons.mp ha with rfl | ha2
          · exact List.mem_cons_self a ys
          · exact List.mem_cons_of_mem y
              (ih r (hs ▸ List.mem_cons_self r rs) ha2)
        · exact List.Subset.trans
            (ih x (hs ▸ List.mem_cons_of_mem r hx2)) (List.subset_cons_self y ys)

theorem dropWhile_fix (p : Char → Bool) (x : Char) (xs : Str)
    (h : p x = false) : List.dropWhile p (x :: xs) = x :: xs := by
  simp [List.dropWhile, h]

theorem dropWhile_fix_of_bw (s : Str) (c : Char) (p : Str)
    (h : beginsWith s (c :: p) = true) (hc : isSpaceChar c = false) :
    List.dropWhile isSpaceChar s = s := by
  cases s with
  | nil => simp [beginsWith] at h
  | cons x xs =>
    simp only [beginsWith, Bool.and_eq_true, decide_eq_true_eq] at h
    exact dropWhile_fix _ _ _ (by rw [h.1]; exact hc)

theorem trimSpace_fixed (s : Str) (h1 : beginsWith s "git@".data = true)
    (h2 : finishesWith s ".git".data = true) : trimSpace s = s := by
  unfold finishesWith at h2
  have e1 : List.dropWhile isSpaceChar s = s :=
    dropWhile_fix_of_bw s 'g' "it@".data h1 (by decide)
  have e2 : List.dropWhile isSpaceChar s.reverse = s.reverse :=
    dropWhile_fix_of_bw s.reverse 't' ['i', 'g', '.'] h2 (by decide)
  unfold trimSpace
  rw [e1, e2, List.reverse_reverse]

/-! ## Structural lemmas about the URL parser -/

theorem sub_not_mem {c : Char} {l1 l2 : Str} (h : c ∉ l2) (hs : l1 ⊆ l2) :
    c ∉ l1 :=
  fun ha => h (hs ha)

theorem unescape_cons_not_pct (c : Char) (cs : Str) (hc : ¬c = '%') :
    unescape (c :: cs) =
      match unescape cs with
      | .ok t => .ok (c :: t)
      | .error e => .error e := by
  rcases cs with _ | ⟨a, _ | ⟨b, rest⟩⟩
  · rw [unescape.eq_3 c [] (fun x y r hxy => by cases hxy), if_neg hc]
  · rw [unescape.eq_3 c [a] (fun x y r hxy => by cases hxy), if_neg hc]
  · rw [unescape.eq_2, if_neg hc]

theorem unescape_of_not_mem (s : Str) (h : '%' ∉ s) : unescape s = .ok s := by
  induction s with
  | nil => rfl
  | cons c cs ih =>
    have hc : ¬c = '%' := fun he => h (he ▸ List.mem_cons_self c cs)
    have hcs : '%' ∉ cs := fun hm => h (List.mem_cons_of_mem c hm)
    rw [unescape_cons_not_pct c cs hc, ih hcs]

theorem unescape_cons_ok (c : Char) (cs p : Str) (hc : ¬c = '%')
    (h : unescape (c :: cs) = .ok p) :
    ∃ t, p = c :: t ∧ unescape cs = .ok t := by
  rw [unescape_cons_not_pct c cs hc] at h
  cases hu : unescape cs with
  | ok t =>
    rw [hu] at h
    refine ⟨t, ?_, rfl⟩
    injection h with h2
    exact h2.symm
  | error e =>
    rw [hu] at h
    cases h

theorem parseAuthority_host_sub (auth : Str) (w : Option Str) (hst : Str)
    (h : parseAuthority auth = .ok (w, hst)) : hst ⊆ auth := by
  unfold parseAuthority at h
  cases hl : lastIdxOf auth '@' with
  | none =>
    simp only [hl] at h
    cases h
    exact fun a ha => ha
  | some i =>
    simp only [hl] at h
    cases hc : charIdx ':' (auth.take i) with
    | none =>
      simp only [hc] at h
      cases hu : unescape (auth.take i) with
      | error e =>
        simp only [hu] at h
        cases h
      | ok n =>
        simp only [hu] at h
        cases h
        exact List.drop_subset _ _
    | some j =>
      simp only [hc] at h
      cases hu : unescape ((auth.take i).take j) with
      | error e =>
        simp only [hu] at h
        cases h
      | ok n =>
        simp only [hu] at h
        cases hu2 : unescape ((auth.take i).drop (j + 1)) with
        | error e =>
          simp only [hu2] at h
          cases h
        | ok x =>
          simp only [hu2] at h
          cases h
          exact List.drop_subset _ _

theorem authorityAndPath_ok (sc r1 : Str) (u : URL)
    (h : authorityAndPath sc r1 = .ok u) :
    u.scheme = sc ∧ u.host ⊆ r1 ∧
      ((u.host ≠ [] ∨ u.user ≠ none) →
        (u.path = [] ∨ ∃ t, u.path = '/' :: t)) := by
  unfold authorityAndPath at h
  split at h
  · split at h
    · cases h
    · rename_i user host hpa
      split at h
      · cases h
      · rename_i p hu
        cases h
        refine ⟨rfl, ?_, ?_⟩
        · exact List.Subset.trans
            (List.Subset.trans (parseAuthority_host_sub _ _ _ hpa)
              (goSplit_fst_sub _ _ _))
            (List.drop_subset _ _)
        · intro _
          rcases goSplit_snd_shape (r1.drop 2) '/' with hnil | ⟨t, ht⟩
          · rw [hnil] at hu
            cases hu
            exact Or.inl rfl
          · rw [ht] at hu
            obtain ⟨t2, hp, _⟩ := unescape_cons_ok '/' t p (by decide) hu
            exact Or.inr ⟨t2, hp⟩
  · split at h
    · cases h
    · rename_i p hu
      cases h
      refine ⟨rfl, List.nil_subset _, ?_⟩
      intro hor
      rcases hor with h1 | h2
      · exact absurd rfl h1
      · exact absurd rfl h2

theorem afterScheme_ok (sc r0 : Str) (u : URL) (h : afterScheme sc r0 = .ok u) :
    u.scheme = sc ∧ (u.host ⊆ r0 ∧ '?' ∉ u.host) ∧
      ((u.host ≠ [] ∨ u.user ≠ none) →
        (u.path = [] ∨ ∃ t, u.path = '/' :: t)) := by
  have hq : '?' ∉ (goSplit r0 '?' true).1 := goSplit_fst_not_mem r0 '?' true
  have hq_sub : (goSplit r0 '?' true).1 ⊆ r0 := goSplit_fst_sub r0 '?' true
  unfold afterScheme at h
  split at h
  · cases h
    exact ⟨rfl, ⟨List.nil_subset _, List.not_mem_nil _⟩, fun _ => Or.inl rfl⟩
  · obtain ⟨hsc, hh, hsh⟩ := authorityAndPath_ok sc _ u h
    exact ⟨hsc, ⟨List.Subset.trans hh hq_sub, sub_not_mem hq hh⟩, hsh⟩

theorem urlParse_ok_shape (s : Str) (u : URL) (h : urlParse s = .ok u) :
    ('#' ∉ u.host ∧ '?' ∉ u.host) ∧
      ((u.host ≠ [] ∨ u.user ≠ none) →
        (u.path = [] ∨ ∃ t, u.path = '/' :: t)) := by
  unfold urlParse at h
  split at h
  · cases h
  · rename_i u0 hinner
    have hu0 : u0 = u := by
      split at h
      · injection h
      · split at h
        · cases h
        · injection h
    rw [hu0] at hinner
    have hnh : '#' ∉ (goSplit s '#' true).1 := goSplit_fst_not_mem s '#' true
    revert hinner hnh
    generalize (goSplit s '#' true).1 = raw1
    intro hinner hnh
    unfold urlParseInner at hinner
    split at hinner
    · cases hinner
      refine ⟨⟨List.not_mem_nil _, List.not_mem_nil _⟩, ?_⟩
      intro hor
      rcases hor with h1 | h2
      · exact absurd rfl h1
      · exact absurd rfl h2
    · split at hinner
      · cases hinner
      · obtain ⟨_, ⟨hh, hhq⟩, hsh⟩ := afterScheme_ok _ _ u hinner
        exact ⟨⟨sub_not_mem hnh hh, hhq⟩, hsh⟩
      · obtain ⟨_, ⟨hh, hhq⟩, hsh⟩ := afterScheme_ok _ _ u hinner
        exact ⟨⟨sub_not_mem hnh
          (List.Subset.trans hh (List.drop_subset _ raw1)), hhq⟩, hsh⟩

theorem urlParse_user_none_of_scp (s : Str) (u : URL) (hp : urlParse s = .ok u)
    (hb : beginsWith u.path "git@".data = true) : u.user = none := by
  have hsh := (urlParse_ok_shape s u hp).2
  cases hu : u.user with
  | none => rfl
  | some n =>
    have hor := hsh (Or.inr (by simp [hu]))
    rcases hor with hnil | ⟨t, ht⟩
    · rw [hnil] at hb
      exact absurd hb (by decide)
    · rw [ht, bw_slash_not_git] at hb
      cases hb

theorem urlParse_path_slash (s : Str) (u : URL) (hp : urlParse s = .ok u)
    (hh : u.host ≠ []) : u.path = [] ∨ ∃ t, u.path = '/' :: t :=
  (urlParse_ok_shape s u hp).2 (Or.inl hh)

/-! ## Shape lemmas about the sanitizers -/

theorem scpAdjust_cases (u0 : URL) (s : Str) (u1 : URL)
    (h : scpAdjust u0 s = .ok u1) :
    u1 = u0 ∨
      (u1.scheme = u0.scheme ∧ u1.user = u0.user ∧ u1.host ⊆ u0.path ∧
        ∃ t, u1.path = '/' :: t ∧ t ⊆ u0.path) := by
  unfold scpAdjust at h
  split at h
  · cases hc : charIdx ':' (u0.path.drop 4) with
    | none =>
      rw [hc] at h
      cases h
    | some i =>
      rw [hc] at h
      cases h
      refine Or.inr ⟨rfl, rfl,
        List.Subset.trans (List.take_subset _ _) (List.drop_subset _ _),
        (u0.path.drop 4).drop (i + 1), rfl,
        List.Subset.trans (List.drop_subset _ _) (List.drop_subset _ _)⟩
  · cases h
    exact Or.inl rfl

theorem buildHTTPS_cases (u : URL) (out : Str) (h : buildHTTPS u = .ok out) :
    (∃ n, u.user = some n ∧
      out = "https://".data ++ n ++ '@' :: (u.host ++ u.path)) ∨
    (u.user = none ∧ u.host = "bitbucket.org".data ∧
      ∃ seg, (splitOnChar u.path '/').get? 1 = some seg ∧
        out = "https://".data ++ seg ++ '@' :: (u.host ++ u.path)) ∨
    (u.user = none ∧ u.host ≠ "bitbucket.org".data ∧
      out = "https://".data ++ u.host ++ u.path) := by
  unfold buildHTTPS at h
  cases hu : u.user with
  | some n =>
    rw [hu] at h
    cases h
    exact Or.inl ⟨n, rfl, rfl⟩
  | none =>
    rw [hu] at h
    by_cases hbb : u.host = "bitbucket.org".data
    · rw [if_pos hbb] at h
      cases hseg : (splitOnChar u.path '/').get? 1 with
      | none =>
        rw [hseg] at h
        cases h
      | some seg =>
        rw [hseg] at h
        cases h
        exact Or.inr (Or.inl ⟨rfl, hbb, seg, rfl, rfl⟩)
    · rw [if_neg hbb] at h
      cases h
      exact Or.inr (Or.inr ⟨rfl, hbb, rfl⟩)

theorem sanitizeHTTP_invert (s u' h' : Str)
    (hok : sanitizeHTTP s = .ok (u', h')) :
    ∃ u0 u1 out, urlParse s = .ok u0 ∧ scpAdjust u0 s = .ok u1 ∧
      buildHTTPS u1 = .ok out ∧ u' = ensureDotGit out ∧ h' = u1.host := by
  unfold sanitizeHTTP at hok
  split at hok
  · cases hok
  · rename_i u0 hp
    split at hok
    · cases hok
    · rename_i u1 ha
      split at hok
      · cases hok
      · rename_i out hb
        cases hok
        exact ⟨u0, u1, out, hp, ha, hb, rfl, rfl⟩

theorem sanitizeHTTP_ok_shape (s u' h' : Str)
    (hok : sanitizeHTTP s = .ok (u', h')) :
    ∃ T, u' = "https://".data ++ T ∧ finishesWith u' ".git".data = true := by
  obtain ⟨u0, u1, out, _, _, hb, hu, _⟩ := sanitizeHTTP_invert s u' h' hok
  have hout : ∃ T0, out = "https://".data ++ T0 := by
    rcases buildHTTPS_cases u1 out hb with ⟨n, _, ho⟩ | ⟨_, _, seg, _, ho⟩ |
      ⟨_, _, ho⟩
    · exact ⟨n ++ '@' :: (u1.host ++ u1.path), by rw [ho, List.append_assoc]⟩
    · exact ⟨seg ++ '@' :: (u1.host ++ u1.path), by rw [ho, List.append_assoc]⟩
    · exact ⟨u1.host ++ u1.path, by rw [ho, List.append_assoc]⟩
  obtain ⟨T0, hT0⟩ := hout
  subst hu
  refine ⟨?_, ?_, ensureDotGit_finishes out⟩
  · exact if finishesWith out ".git".data then T0 else T0 ++ ".git".data
  · unfold ensureDotGit
    split
    · rw [hT0]
    · rw [hT0, List.append_assoc]

theorem sanitizeGitStep1_bw (t r1 : Str) (h : sanitizeGitStep1 t = .ok r1) :
    beginsWith r1 "git@".data = true := by
  unfold sanitizeGitStep1 at h
  split at h
  · split at h
    · split at h
      · split at h
        · cases h
          exact beginsWith_of_beginsWith_append _ _ _ (beginsWith_append _ _)
        · cases h
      · cases h
    · cases h
  · cases h
    rename_i hcond
    rcases not_or.mp hcond with ⟨h1, _⟩
    exact Bool.of_not_eq_false h1

theorem sanitizeGit_invert (s u' h' : Str) (hok : sanitizeGit s = .ok (u', h')) :
    ∃ r1 i, sanitizeGitStep1 (trimSpace s) = .ok r1 ∧
      beginsWith r1 "git@".data = true ∧
      charIdx ':' (r1.drop 4) = some i ∧
      u' = ensureDotGit r1 ∧ h' = (r1.drop 4).take i := by
  unfold sanitizeGit at hok
  split at hok
  · cases hok
  · rename_i r1 hs1
    split at hok
    · cases hok
    · rename_i i hc
      cases hok
      exact ⟨r1, i, hs1, sanitizeGitStep1_bw _ _ hs1, hc, rfl, rfl⟩

theorem sanitizeGit_ok_shape (s u' h' : Str)
    (hok : sanitizeGit s = .ok (u', h')) :
    ∃ T, u' = "git@".data ++ T ∧ finishesWith u' ".git".data = true := by
  obtain ⟨r1, i, _, hbw, _, hu, _⟩ := sanitizeGit_invert s u' h' hok
  have hr1 := beginsWith_eq_append r1 "git@".data hbw
  subst hu
  refine ⟨?_, ?_, ensureDotGit_finishes r1⟩
  · exact if finishesWith r1 ".git".data then r1.drop "git@".data.length
      else r1.drop "git@".data.length ++ ".git".data
  · unfold ensureDotGit
    split
    · rw [← hr1]
    · conv_lhs => rw [hr1]
      rw [List.append_assoc]

/-! ## Lemmas about the directive parser -/

deriving instance DecidableEq for Except

/-- Does an `Except` hold a success? (`err == nil` in Go terms.) -/
def isOkE {α : Type} : Except Err α → Bool
  | .ok _ => true
  | .error _ => false

theorem parseRepoBlock_invert (ctx : Ctx) (ir : Except Err Unit)
    (pr : Repo → Except Err Unit) (b : Block) (r : Repo)
    (h : parseRepoBlock ctx ir pr b = .ok r) :
    ∃ r1 u hst, applyDirs ctx (initialRepo ctx b) b.body = .ok r1 ∧
      ¬r1.url = [] ∧ r = { r1 with url := u, host := hst } ∧
      ((r1.keyPath = [] ∧ sanitizeHTTP r1.url = .ok (u, hst)) ∨
        (¬r1.keyPath = [] ∧ sanitizeGit r1.url = .ok (u, hst))) := by
  unfold parseRepoBlock at h
  split at h
  · cases h
  · rename_i r1 had
    split at h
    · cases h
    · rename_i hurl
      split at h
      · cases h
      · split at h
        · cases h
        · cases h
      · rename_i u hst hs
        split at h
        · cases h
        · split at h
          · cases h
          · split at h
            · cases h
            · cases h
              refine ⟨r1, u, hst, had, hurl, rfl, ?_⟩
              by_cases hk : r1.keyPath = []
              · rw [if_pos hk] at hs
                exact Or.inl ⟨hk, hs⟩
              · rw [if_neg hk] at hs
                exact Or.inr ⟨hk, hs⟩

theorem parse_ok_mem (ctx : Ctx) (ir : Except Err Unit)
    (pr : Repo → Except Err Unit) :
    ∀ (bs : List Block) (repos : List Repo), parse ctx ir pr bs = .ok repos →
      ∀ r ∈ repos, ∃ b ∈ bs, parseRepoBlock ctx ir pr b = .ok r := by
  intro bs
  induction bs with
  | nil =>
    intro repos h r hr
    simp only [parse] at h
    cases h
    exact absurd hr (List.not_mem_nil r)
  | cons b bs ih =>
    intro repos h r hr
    simp only [parse] at h
    split at h
    · cases h
    · rename_i r0 hpb
      split at h
      · cases h
      · rename_i rs hps
        cases h
        rcases List.mem_cons.mp hr with rfl | hr2
        · exact ⟨b, List.mem_cons_self b bs, hpb⟩
        · obtain ⟨b2, hb2, hpb2⟩ := ih rs hps r hr2
          exact ⟨b2, List.mem_cons_of_mem b hb2, hpb2⟩

theorem applyLine_unknown (ctx : Ctx) (r : Repo) (label : Str)
    (rest : List Str) (n1 : ¬label = "repo".data) (n2 : ¬label = "path".data)
    (n3 : ¬label = "branch".data) (n4 : ¬label = "key".data)
    (n5 : ¬label = "interval".data) (n6 : ¬label = "hook".data)
    (n7 : ¬label = "hook_type".data) (n8 : ¬label = "then".data)
    (n9 : ¬label = "then_long".data) :
    applyLine ctx r (label :: rest) = .error .argErr := by
  unfold applyLine
  rw [if_neg n1, if_neg n2, if_neg n3, if_neg n4, if_neg n5, if_neg n6,
    if_neg n7, if_neg n8, if_neg n9]

theorem applyLine_preserve (ctx : Ctx) (r : Repo) (cur : List Str) :
    ∀ r', applyLine ctx r cur = .ok r' →
      ("interval".data ∉ cur → r'.interval = r.interval) ∧
      ("branch".data ∉ cur → r'.branch = r.branch) := by
  induction r, cur using applyLine.induct ctx with
  | case1 r =>
    intro r' h
    cases h
    exact ⟨fun _ => rfl, fun _ => rfl⟩
  | case2 r =>
    intro r' h
    cases h
  | case3 r v rs ih =>
    intro r' h
    have e : applyLine ctx r ("repo".data :: v :: rs) =
      applyLine ctx { r with url := v } rs := by
      conv_lhs => rw [applyLine.eq_def]
      rfl
    rw [e] at h
    exact ⟨fun hm => (ih r' h).1
        (fun hc => hm (List.mem_cons_of_mem _ (List.mem_cons_of_mem _ hc))),
      fun hm => (ih r' h).2
        (fun hc => hm (List.mem_cons_of_mem _ (List.mem_cons_of_mem _ hc)))⟩
  | case4 r _ =>
    intro r' h
    cases h
  | case5 r v rs _ ih =>
    intro r' h
    have e : applyLine ctx r ("path".data :: v :: rs) = applyLine ctx
      { r with path := ctx.cleanPath (ctx.root ++ ctx.sep :: v) } rs := by
      conv_lhs => rw [applyLine.eq_def]
      rfl
    rw [e] at h
    exact ⟨fun hm => (ih r' h).1
        (fun hc => hm (List.mem_cons_of_mem _ (List.mem_cons_of_mem _ hc))),
      fun hm => (ih r' h).2
        (fun hc => hm (List.mem_cons_of_mem _ (List.mem_cons_of_mem _ hc)))⟩
  | case6 r _ _ =>
    intro r' h
    cases h
  | case7 r v rs _ _ ih =>
    intro r' h
    have e : applyLine ctx r ("branch".data :: v :: rs) =
      applyLine ctx { r with branch := v } rs := by
      conv_lhs => rw [applyLine.eq_def]
      rfl
    rw [e] at h
    refine ⟨fun hm => (ih r' h).1
      (fun hc => hm (List.mem_cons_of_mem _ (List.mem_cons_of_mem _ hc))),
      fun hm => absurd (List.mem_cons_self _ _) hm⟩
  | case8 r _ _ _ =>
    intro r' h
    cases h
  | case9 r v rs _ _ _ ih =>
    intro r' h
    have e : applyLine ctx r ("key".data :: v :: rs) =
      applyLine ctx { r with keyPath := v } rs := by
      conv_lhs => rw [applyLine.eq_def]
      rfl
    rw [e] at h
    exact ⟨fun hm => (ih r' h).1
        (fun hc => hm (List.mem_cons_of_mem _ (List.mem_cons_of_mem _ hc))),
      fun hm => (ih r' h).2
        (fun hc => hm (List.mem_cons_of_mem _ (List.mem_cons_of_mem _ hc)))⟩
  | case10 r _ _ _ _ =>
    intro r' h
    cases h
  | case11 r v rs _ _ _ _ ih =>
    intro r' h
    have e : applyLine ctx r ("interval".data :: v :: rs) = applyLine ctx
      (if (goAtoi v).1 > 0 then
        { r with interval := durationSeconds (goAtoi v).1 } else r) rs := by
      conv_lhs => rw [applyLine.eq_def]
      rfl
    rw [e] at h
    refine ⟨fun hm => absurd (List.mem_cons_self _ _) hm, fun hm => ?_⟩
    have hb := (ih r' h).2
      (fun hc => hm (List.mem_cons_of_mem _ (List.mem_cons_of_mem _ hc)))
    have e : (if (goAtoi v).1 > 0 then
        { r with interval := durationSeconds (goAtoi v).1 } else r).branch =
        r.branch := by
      split <;> rfl
    exact hb.trans e
  | case12 r _ _ _ _ _ =>
    intro r' h
    cases h
  | case13 r v s rest3 _ _ _ _ _ ih =>
    intro r' h
    have e : applyLine ctx r ("hook".data :: v :: s :: rest3) = applyLine ctx
      { r with hook := { r.hook with url := v, secret := s } } rest3 := by
      conv_lhs => rw [applyLine.eq_def]
      rfl
    rw [e] at h
    exact ⟨fun hm => (ih r' h).1 (fun hc => hm (List.mem_cons_of_mem _
        (List.mem_cons_of_mem _ (List.mem_cons_of_mem _ hc)))),
      fun hm => (ih r' h).2 (fun hc => hm (List.mem_cons_of_mem _
        (List.mem_cons_of_mem _ (List.mem_cons_of_mem _ hc))))⟩
  | case14 r v _ _ _ _ _ =>
    intro r' h
    cases h
    exact ⟨fun _ => rfl, fun _ => rfl⟩
  | case15 r _ _ _ _ _ =>
    intro r' h
    cases h
  | case16 r v rs hkt _ _ _ _ _ _ ih =>
    intro r' h
    have e : applyLine ctx r ("hook_type".data :: v :: rs) =
      (if ctx.knownHookTypes v then applyLine ctx
        { r with hook := { r.hook with type := v } } rs
      else .error (.errf ("invalid hook type ".data ++ v))) := by
      conv_lhs => rw [applyLine.eq_def]
      rfl
    rw [e, if_pos hkt] at h
    exact ⟨fun hm => (ih r' h).1
        (fun hc => hm (List.mem_cons_of_mem _ (List.mem_cons_of_mem _ hc))),
      fun hm => (ih r' h).2
        (fun hc => hm (List.mem_cons_of_mem _ (List.mem_cons_of_mem _ hc)))⟩
  | case17 r v rs hkt _ _ _ _ _ _ =>
    intro r' h
    have e : applyLine ctx r ("hook_type".data :: v :: rs) =
      (if ctx.knownHookTypes v then applyLine ctx
        { r with hook := { r.hook with type := v } } rs
      else .error (.errf ("invalid hook type ".data ++ v))) := by
      conv_lhs => rw [applyLine.eq_def]
      rfl
    rw [e, if_neg hkt] at h
    cases h
  | case18 r _ _ _ _ _ _ =>
    intro r' h
    cases h
  | case19 r v rs _ _ _ _ _ _ _ =>
    intro r' h
    have e : applyLine ctx r ("then".data :: v :: rs) =
      .ok { r with thenCmds := r.thenCmds ++ [⟨v, rs, false⟩] } := by
      conv_lhs => rw [applyLine.eq_def]
      rfl
    rw [e] at h
    cases h
    exact ⟨fun _ => rfl, fun _ => rfl⟩
  | case20 r _ _ _ _ _ _ _ =>
    intro r' h
    cases h
  | case21 r v rs _ _ _ _ _ _ _ _ =>
    intro r' h
    have e : applyLine ctx r ("then_long".data :: v :: rs) =
      .ok { r with thenCmds := r.thenCmds ++ [⟨v, rs, true⟩] } := by
      conv_lhs => rw [applyLine.eq_def]
      rfl
    rw [e] at h
    cases h
    exact ⟨fun _ => rfl, fun _ => rfl⟩
  | case22 r label rest n1 n2 n3 n4 n5 n6 n7 n8 n9 =>
    intro r' h
    rw [applyLine_unknown ctx r label rest n1 n2 n3 n4 n5 n6 n7 n8 n9] at h
    cases h

theorem applyDirs_preserve (ctx : Ctx) :
    ∀ (ls : List (List Str)) (r r' : Repo), applyDirs ctx r ls = .ok r' →
      ((∀ l ∈ ls, "interval".data ∉ l) → r'.interval = r.interval) ∧
      ((∀ l ∈ ls, "branch".data ∉ l) → r'.branch = r.branch) := by
  intro ls
  induction ls with
  | nil =>
    intro r r' h
    simp only [applyDirs] at h
    cases h
    exact ⟨fun _ => rfl, fun _ => rfl⟩
  | cons l ls ih =>
    intro r r' h
    simp only [applyDirs] at h
    split at h
    · cases h
    · rename_i r2 hl
      obtain ⟨p1, p2⟩ := applyLine_preserve ctx r l r2 hl
      obtain ⟨q1, q2⟩ := ih r2 r' h
      constructor
      · intro hm
        exact (q1 (fun l2 hl2 => hm l2 (List.mem_cons_of_mem l hl2))).trans
          (p1 (hm l (List.mem_cons_self l ls)))
      · intro hm
        exact (q2 (fun l2 hl2 => hm l2 (List.mem_cons_of_mem l hl2))).trans
          (p2 (hm l (List.mem_cons_self l ls)))

theorem initialRepo_fields (ctx : Ctx) (b : Block) :
    (initialRepo ctx b).interval = defaultInterval ∧
    (initialRepo ctx b).branch = "master".data := by
  unfold initialRepo
  split <;> exact ⟨rfl, rfl⟩

/-! ## Shared concrete instances used by witnesses and counterexamples -/

/-- A concrete parsing context: root `/www`, platform `linux`, identity
`filepath.Clean`, and `github` as the only registered hook type. -/
def demoCtx : Ctx :=
  { root := "/www".data, goos := "linux".data, sep := '/',
    knownHookTypes := fun t => t = "github".data, cleanPath := fun s => s }

/-- The descriptor that `parse` produces for the plain one-line block
`git https://github.com/o/r` under `demoCtx`. -/
def demoRepo8 : Repo :=
  { url := "https://github.com/o/r.git".data, host := "github.com".data,
    path := "/www".data, branch := "master".data, keyPath := [],
    interval := defaultInterval, hook := { url := [], secret := [], type := [] },
    thenCmds := [] }

/-! ## Claim C2 — once-per-server-block registration -/

/--
C2.  Modelled from the spec: `OncePerServerBlock` and the `Startup` list
belong to the hosting server, outside this repository.  Evaluating
`Setup`'s guarded registration for any non-empty run of logical server
contexts that all share one configuration block appends the block's
startup functions to the host's startup list exactly once — so a
repository declared in two contexts of one shared block yields exactly one
registered startup action per repository.
-/
theorem C2_once_per_server_block (fns : List StartupFn) (bs : List Nat)
    (b : Nat) (st : OnceState) (hall : ∀ c ∈ bs, c = b)
    (hb : b ∉ st.executed) (hne : bs ≠ []) :
    (runContexts fns bs st).startup = st.startup ++ fns := by
  cases bs with
  | nil => exact absurd rfl hne
  | cons c cs =>
    obtain rfl : c = b := hall c (List.mem_cons_self c cs)
    have stable : ∀ (ds : List Nat) (st2 : OnceState),
        (∀ d ∈ ds, d ∈ st2.executed) → runContexts fns ds st2 = st2 := by
      intro ds
      induction ds with
      | nil => intro st2 _; rfl
      | cons d ds ih2 =>
        intro st2 hmem
        have e2 : setupRegister d fns st2 = st2 := by
          unfold setupRegister oncePerServerBlock
          rw [if_pos (hmem d (List.mem_cons_self d ds))]
        simp only [runContexts, e2]
        exact ih2 st2 fun d2 hd2 => hmem d2 (List.mem_cons_of_mem d hd2)
    have e1 : setupRegister c fns st =
        { executed := c :: st.executed, startup := st.startup ++ fns } := by
      unfold setupRegister oncePerServerBlock
      rw [if_neg hb]
    simp only [runContexts, e1]
    rw [stable cs _ ?_]
    intro d hd
    obtain rfl : d = c := hall d (List.mem_cons_of_mem c hd)
    exact List.mem_cons_self d st.executed

/-- Witness for C2: two contexts of block `7` register the function list
once. -/
theorem C2_once_per_server_block_witness :
    (runContexts [StartupFn.startAndPull (defaultRepo demoCtx)] [7, 7]
      ⟨[], []⟩).startup = [] ++ [StartupFn.startAndPull (defaultRepo demoCtx)] :=
  C2_once_per_server_block [StartupFn.startAndPull (defaultRepo demoCtx)]
    [7, 7] 7 ⟨[], []⟩ (by decide) (by decide) (by decide)

/-! ## Claim C3 — one startup action per descriptor, selected by hook URL -/

/-- The startup closure `Setup` builds for one descriptor. -/
def startupFor (r : Repo) : StartupFn :=
  if hasHook r then .hookPull r else .startAndPull r

theorem setupLists_spec (repos : List Repo) :
    setupLists repos = (repos.filter hasHook, repos.map startupFor) := by
  unfold setupLists
  have key : ∀ (rs : List Repo) (a : List Repo) (b2 : List StartupFn),
      rs.foldl
        (fun acc r =>
          if hasHook r then (acc.1 ++ [r], acc.2 ++ [.hookPull r])
          else (acc.1, acc.2 ++ [.startAndPull r])) (a, b2) =
        (a ++ rs.filter hasHook, b2 ++ rs.map startupFor) := by
    intro rs
    induction rs with
    | nil => intro a b2; simp
    | cons r rs ih =>
      intro a b2
      simp only [List.foldl_cons, List.filter_cons, List.map_cons]
      by_cases hr : hasHook r = true
      · rw [if_pos hr, if_pos hr, ih]
        simp [startupFor, hr, List.append_assoc]
      · rw [if_neg hr, if_neg hr, ih]
        simp [startupFor, hr, List.append_assoc]
  simpa using key repos [] []

/--
C3.  For every parsed descriptor `Setup` builds exactly one startup
closure, selected by the webhook URL: the webhook-target list is exactly
the descriptors with a non-empty `hook.url`, the startup list maps each
descriptor to its one closure, and running the closures shows that in
webhook mode the action performs a single immediate `Pull` and never calls
`Start` (so no recurring polling loop is started and the interval is
unused), while in polling mode the action calls `Start` and then performs
one immediate `Pull` whose error it returns.
-/
theorem C3_startup_actions (repos : List Repo) (pullRes : Repo → Option Err) :
    (setupLists repos).1 = repos.filter hasHook ∧
    (setupLists repos).2 = repos.map startupFor ∧
    (∀ r, hasHook r = true →
      startupFor r = .hookPull r ∧
      runStartupFn pullRes (.hookPull r) = ([.pull r], pullRes r) ∧
      ∀ r2, Eff.start r2 ∉ (runStartupFn pullRes (.hookPull r)).1) ∧
    (∀ r, hasHook r = false →
      startupFor r = .startAndPull r ∧
      runStartupFn pullRes (.startAndPull r) =
        ([.start r, .pull r], pullRes r)) := by
  refine ⟨congrArg Prod.fst (setupLists_spec repos),
    congrArg Prod.snd (setupLists_spec repos), ?_, ?_⟩
  · intro r hr
    refine ⟨by unfold startupFor; rw [if_pos hr], rfl, ?_⟩
    intro r2 hm
    simp only [runStartupFn, List.mem_singleton] at hm
    cases hm
  · intro r hr
    exact ⟨by unfold startupFor; rw [if_neg (by simp [hr])], rfl⟩

/-- A copy of `demoRepo8` configured with a webhook URL. -/
def demoHookRepo : Repo :=
  { demoRepo8 with
    hook := { url := "/h".data, secret := [], type := [] } }

/-- Witness for C3 at a webhook repository and a plain repository. -/
theorem C3_startup_actions_witness :
    startupFor demoHookRepo = .hookPull demoHookRepo ∧
    startupFor demoRepo8 = .startAndPull demoRepo8 ∧
    runStartupFn (fun _ => none) (.startAndPull demoRepo8) =
      ([.start demoRepo8, .pull demoRepo8], none) :=
  ⟨((C3_startup_actions [] (fun _ => none)).2.2.1 demoHookRepo (by decide)).1,
   ((C3_startup_actions [] (fun _ => none)).2.2.2 demoRepo8 (by decide)).1,
   ((C3_startup_actions [] (fun _ => none)).2.2.2 demoRepo8 (by decide)).2⟩

/-! ## Claim C7 — atomic, fail-fast parsing -/

/--
C7.  Parsing is atomic and fail-fast: if every block before some failing
block parses successfully and that block fails with error `e`, the whole
parse returns exactly `.error e` — the error of the first failing block —
and hence no descriptor sequence; and a parse succeeds exactly when every
one of its blocks does, so no partially-built descriptors are ever
returned (the errors a block can raise include the unrecognized
sub-directive label, the labelled sub-directive missing its value, the
empty repository URL, URL-normalization failures and `Init`/`Prepare`
failures, all of which surface as `.error` from `parseRepoBlock`).
-/
theorem C7_fail_fast :
    (∀ (ctx : Ctx) (ir : Except Err Unit) (pr : Repo → Except Err Unit)
        (pre : List Block) (b : Block) (post : List Block) (e : Err),
      (∀ b2 ∈ pre, isOkE (parseRepoBlock ctx ir pr b2) = true) →
      parseRepoBlock ctx ir pr b = .error e →
      parse ctx ir pr (pre ++ b :: post) = .error e) ∧
    (∀ (ctx : Ctx) (ir : Except Err Unit) (pr : Repo → Except Err Unit)
        (bs : List Block),
      isOkE (parse ctx ir pr bs) = true ↔
        ∀ b2 ∈ bs, isOkE (parseRepoBlock ctx ir pr b2) = true) := by
  constructor
  · intro ctx ir pr pre
    induction pre with
    | nil =>
      intro b post e _ hb
      simp [parse, hb]
    | cons b2 pre ih =>
      intro b post e hpre hb
      have hb2 := hpre b2 (List.mem_cons_self b2 pre)
      cases hp2 : parseRepoBlock ctx ir pr b2 with
      | error e2 => rw [hp2] at hb2; cases hb2
      | ok r2 =>
        have hrec := ih b post e
          (fun b3 hb3 => hpre b3 (List.mem_cons_of_mem b2 hb3)) hb
        simp [parse, hp2, hrec]
  · intro ctx ir pr bs
    induction bs with
    | nil => simp [parse, isOkE]
    | cons b bs ih =>
      cases hpb : parseRepoBlock ctx ir pr b with
      | error e =>
        simp only [parse, hpb, isOkE]
        constructor
        · intro hfalse; cases hfalse
        · intro hall
          have := hall b (List.mem_cons_self b bs)
          rw [hpb] at this
          cases this
      | ok r =>
        cases hps : parse ctx ir pr bs with
        | error e =>
          simp only [parse, hpb, hps, isOkE]
          constructor
          · intro hfalse; cases hfalse
          · intro hall
            have h2 := ih.mpr fun b2 hb2 => hall b2 (List.mem_cons_of_mem b hb2)
            rw [hps] at h2
            cases h2
        | ok rs =>
          simp only [parse, hpb, hps, isOkE]
          constructor
          · intro _ b2 hb2
            rcases List.mem_cons.mp hb2 with rfl | hb3
            · rw [hpb]
            · have h2 := ih.mp (by rw [hps]; rfl)
              exact h2 b2 hb3
          · intro _
            trivial

/-- Witness for C7: a good block followed by a block with an unknown
sub-directive makes the whole parse fail with that block's error. -/
theorem C7_fail_fast_witness :
    parse demoCtx (.ok ()) (fun _ => .ok ())
      [⟨["https://github.com/o/r".data], []⟩,
       ⟨["https://github.com/o/r".data], [["bogus".data, "x".data]]⟩] =
      .error .argErr :=
  C7_fail_fast.1 demoCtx (.ok ()) (fun _ => .ok ())
    [⟨["https://github.com/o/r".data], []⟩]
    ⟨["https://github.com/o/r".data], [["bogus".data, "x".data]]⟩ [] .argErr
    (by decide) (by decide)

/-! ## Claim C9 — Windows with a key fails before any side effects -/

/--
C9 (amended).  When a private key is configured and the platform is
Windows, parsing the block fails before any filesystem side effect — the
result does not depend on the `Init` and `Prepare` outcomes, so neither
global environment validation nor per-descriptor path preparation is
invoked — but the failure is the `UnsupportedPlatform` error only when
`sanitizeGit` does not panic first: the source calls `sanitizeGit` before
the platform check, so on an input that makes it panic (an http(s) URL
with an empty path) the program panics instead of returning the error.
-/
theorem C9_windows_key (ctx : Ctx) (ir : Except Err Unit)
    (pr : Repo → Except Err Unit) (b : Block) (r1 : Repo)
    (hgoos : ctx.goos = "windows".data)
    (had : applyDirs ctx (initialRepo ctx b) b.body = .ok r1)
    (hkey : r1.keyPath ≠ []) (hurl : ¬r1.url = []) :
    parseRepoBlock ctx ir pr b =
      match sanitizeGit r1.url with
      | .error (.goPanic m) => .error (.goPanic m)
      | _ => .error .unsupportedPlatform := by
  simp only [parseRepoBlock, had]
  rw [if_neg hurl, if_neg hkey]
  simp only [if_pos
    (show r1.keyPath ≠ [] ∧ ctx.goos = "windows".data from ⟨hkey, hgoos⟩)]
  cases hs : sanitizeGit r1.url with
  | ok uh => rfl
  | error e => cases e <;> rfl

/--
Counterexample to C9 as stated: on Windows with a key and repository URL
`https://github.com`, parsing does not return `UnsupportedPlatform` —
`sanitizeGit` runs first and panics on the empty path (`url.Path[1:]`), so
the panic pre-empts the platform check.
-/
theorem C9_counterexample :
    parseRepoBlock { demoCtx with goos := "windows".data } (.ok ())
      (fun _ => .ok ())
      ⟨["https://github.com".data], [["key".data, "/k".data]]⟩ =
      .error (.goPanic "slice bounds out of range".data) ∧
    Err.goPanic "slice bounds out of range".data ≠ .unsupportedPlatform :=
  ⟨by decide, by decide⟩

/-- Witness for C9: a `key` block on Windows whose URL `sanitizeGit`
accepts, with both collaborators reporting success, fails with
`UnsupportedPlatform`. -/
theorem C9_windows_key_witness :
    parseRepoBlock { demoCtx with goos := "windows".data } (.ok ())
      (fun _ => .ok ())
      ⟨["git@github.com:o/r".data], [["key".data, "/k".data]]⟩ =
      .error .unsupportedPlatform :=
  (C9_windows_key { demoCtx with goos := "windows".data } (.ok ())
    (fun _ => .ok ())
    ⟨["git@github.com:o/r".data], [["key".data, "/k".data]]⟩
    { url := "git@github.com:o/r".data, host := [], path := "/www".data,
      branch := "master".data, keyPath := "/k".data,
      interval := defaultInterval,
      hook := { url := [], secret := [], type := [] }, thenCmds := [] }
    rfl (by decide) (by decide) (by decide)).trans (by decide)

/-! ## Claim C10 — `sanitizeGit` panics on http(s) URLs with empty path -/

/--
C10.  The claim states that `sanitizeGit` is total — for every input it
returns either an `InvalidURL` error or a `git@`-prefixed, `.git`-suffixed
URL with its host, with every slicing operation in bounds, in particular
for http(s) inputs with an empty path.  The code violates this: for
`https://github.com` the parsed path is empty and Go's `url.Path[1:]`
slices out of bounds, a runtime panic; the model evaluates the failing
input to exactly that panic.
-/
theorem C10_sanitizeGit_empty_path_panic :
    sanitizeGit "https://github.com".data =
      .error (.goPanic "slice bounds out of range".data) ∧
    urlParse "https://github.com".data =
      .ok { scheme := "https".data, user := none, host := "github.com".data,
            path := [] } := by
  decide

/-! ## Claim C8 — defaults and the permissive interval directive -/

/--
C8 (amended).  A block whose body never mentions the `interval` token
produces a descriptor with the default interval of one hour, and one whose
body never mentions the `branch` token keeps the default branch `master`
(a `branch` sub-directive overrides the latter even in a block with no
`hook` or `interval`); and an `interval` sub-directive whose value Go's
`Atoi` maps to a non-positive integer — in particular `0`, `-5` and any
string that is not a decimal numeral — is silently ignored, leaving the
descriptor unchanged.  Integer literals that overflow `int64` are the one
family of unparseable values that is *not* ignored: `Atoi` returns the
clamped boundary together with its error, so an over-range positive
literal passes the `t > 0` test and does change the interval.
-/
theorem C8_defaults_and_interval :
    (∀ (ctx : Ctx) (ir : Except Err Unit) (pr : Repo → Except Err Unit)
        (b : Block) (r : Repo), parseRepoBlock ctx ir pr b = .ok r →
      ((∀ l ∈ b.body, "interval".data ∉ l) → r.interval = defaultInterval) ∧
      ((∀ l ∈ b.body, "branch".data ∉ l) → r.branch = "master".data)) ∧
    (∀ (ctx : Ctx) (r : Repo) (v : Str) (rest : List Str),
      (goAtoi v).1 ≤ 0 →
      applyLine ctx r ("interval".data :: v :: rest) = applyLine ctx r rest) := by
  constructor
  · intro ctx ir pr b r h
    obtain ⟨r1, u, hst, had, _, hr, _⟩ :=
      parseRepoBlock_invert ctx ir pr b r h
    obtain ⟨p1, p2⟩ := applyDirs_preserve ctx b.body (initialRepo ctx b) r1 had
    obtain ⟨f1, f2⟩ := initialRepo_fields ctx b
    subst hr
    constructor
    · intro hm
      exact (p1 hm).trans f1
    · intro hm
      exact (p2 hm).trans f2
  · intro ctx r v rest h
    have e : applyLine ctx r ("interval".data :: v :: rest) = applyLine ctx
        (if (goAtoi v).1 > 0 then
          { r with interval := durationSeconds (goAtoi v).1 } else r) rest := by
      conv_lhs => rw [applyLine.eq_def]
      rfl
    rw [e, if_neg (not_lt.mpr h)]

/--
Counterexample to C8 as stated: the value `9223372036854775808` is not
parseable as an `int64` (`Atoi` errors), yet the interval does not keep its
previous value — the clamped maximum overflows the nanosecond
multiplication and the interval becomes `-1` second; and a block with no
`hook` and no `interval` but a `branch dev` sub-directive does not produce
branch `master`.
-/
theorem C8_counterexample :
    goAtoi "9223372036854775808".data = (9223372036854775807, true) ∧
    (parseRepoBlock demoCtx (.ok ()) (fun _ => .ok ())
      ⟨["https://github.com/o/r".data],
        [["interval".data, "9223372036854775808".data]]⟩).map Repo.interval =
      .ok (-1000000000) ∧
    (-1000000000 : Int) ≠ defaultInterval ∧
    (parseRepoBlock demoCtx (.ok ()) (fun _ => .ok ())
      ⟨["https://github.com/o/r".data], [["branch".data, "dev".data]]⟩).map
      Repo.branch = .ok "dev".data ∧
    "dev".data ≠ "master".data := by
  decide

/-- Witness for C8: the plain block keeps the one-hour default and the
`master` branch, and `interval 0`, `interval -5` and `interval abc` all
leave the descriptor untouched. -/
theorem C8_defaults_and_interval_witness :
    demoRepo8.interval = defaultInterval ∧ demoRepo8.branch = "master".data ∧
    applyLine demoCtx demoRepo8 ["interval".data, "0".data] =
      applyLine demoCtx demoRepo8 [] ∧
    applyLine demoCtx demoRepo8 ["interval".data, "-5".data] =
      applyLine demoCtx demoRepo8 [] ∧
    applyLine demoCtx demoRepo8 ["interval".data, "abc".data] =
      applyLine demoCtx demoRepo8 [] :=
  ⟨(C8_defaults_and_interval.1 demoCtx (.ok ()) (fun _ => .ok ())
      ⟨["https://github.com/o/r".data], []⟩ demoRepo8 (by decide)).1 (by decide),
   (C8_defaults_and_interval.1 demoCtx (.ok ()) (fun _ => .ok ())
      ⟨["https://github.com/o/r".data], []⟩ demoRepo8 (by decide)).2 (by decide),
   C8_defaults_and_interval.2 demoCtx demoRepo8 "0".data [] (by decide),
   C8_defaults_and_interval.2 demoCtx demoRepo8 "-5".data [] (by decide),
   C8_defaults_and_interval.2 demoCtx demoRepo8 "abc".data [] (by decide)⟩

/-! ## Claims C4 and C5 — the two special rewrites of `sanitizeHTTP` -/

theorem buildHTTPS_some (sc hst pa n : Str) :
    buildHTTPS ⟨sc, some n, hst, pa⟩ =
      .ok ("https://".data ++ n ++ '@' :: (hst ++ pa)) := rfl

theorem buildHTTPS_none (sc hst pa : Str) :
    buildHTTPS ⟨sc, none, hst, pa⟩ =
      (if hst = "bitbucket.org".data then
        match (splitOnChar pa '/').get? 1 with
        | some seg => .ok ("https://".data ++ seg ++ '@' :: (hst ++ pa))
        | none => .error (.goPanic "index out of range".data)
      else .ok ("https://".data ++ hst ++ pa)) := rfl

theorem scpAdjust_apply (sc : Str) (w : Option Str) (pa s : Str)
    (hb : beginsWith pa "git@".data = true) :
    scpAdjust ⟨sc, w, [], pa⟩ s =
      (match charIdx ':' (pa.drop 4) with
       | none => .error (.invalidGitURL s)
       | some i =>
         .ok ⟨sc, w, (pa.drop 4).take i, '/' :: (pa.drop 4).drop (i + 1)⟩) := by
  unfold scpAdjust
  rw [if_pos ⟨rfl, hb⟩]

theorem splitOnChar_slash_get_one (t : Str) :
    (splitOnChar ('/' :: t) '/').get? 1 = some (firstSegBy '/' t) := by
  cases hsp : splitOnChar t '/' with
  | nil => exact absurd hsp (splitOnChar_ne_nil t '/')
  | cons r rs =>
    rw [splitOnChar_cons '/' '/' t r rs hsp, if_pos rfl]
    have hh := splitOnChar_head t '/'
    rw [hsp] at hh
    simp only [List.head?] at hh
    rw [Option.some.inj hh]
    rfl

/--
C4 (amended).  For every input whose parsed URL has no host and a path
beginning `git@` (SCP-style SSH form), `sanitizeHTTP` strips the `git@`
prefix and splits at the first `:` into host and path: with no `:` it
fails with the `invalid git url` error, and otherwise it returns
`https://<host>/<path>` with the `.git` suffix ensured and the host
extracted — except that when the extracted host is `bitbucket.org` the
first path segment is additionally embedded as the URL user, exactly as in
the provider-specific branch.
-/
theorem C4_scp_rewrite (s : Str) (u : URL) (hp : urlParse s = .ok u)
    (hh : u.host = []) (hb : beginsWith u.path "git@".data = true) :
    (charIdx ':' (u.path.drop 4) = none →
      sanitizeHTTP s = .error (.invalidGitURL s)) ∧
    (∀ i, charIdx ':' (u.path.drop 4) = some i →
      sanitizeHTTP s = .ok (ensureDotGit
        (if (u.path.drop 4).take i = "bitbucket.org".data then
          "https://".data ++ firstSegBy '/' ((u.path.drop 4).drop (i + 1)) ++
            '@' :: ((u.path.drop 4).take i ++
              '/' :: (u.path.drop 4).drop (i + 1))
        else
          "https://".data ++ (u.path.drop 4).take i ++
            '/' :: (u.path.drop 4).drop (i + 1)),
        (u.path.drop 4).take i)) := by
  have husr : u.user = none := urlParse_user_none_of_scp s u hp hb
  obtain ⟨sc, w, h0, p0⟩ := u
  simp only at husr hh hb
  subst husr
  subst hh
  constructor
  · intro hc
    simp only at hc
    simp only [sanitizeHTTP, hp, scpAdjust_apply sc none p0 s hb, hc]
  · intro i hc
    simp only at hc
    simp only [sanitizeHTTP, hp, scpAdjust_apply sc none p0 s hb, hc,
      buildHTTPS_none]
    by_cases hbb : (p0.drop 4).take i = "bitbucket.org".data
    · rw [if_pos hbb, if_pos hbb, splitOnChar_slash_get_one]
    · rw [if_neg hbb, if_neg hbb]

/--
Counterexample to C4 as stated: on the SCP-style input
`git@bitbucket.org:acct/repo` the function does not return the claimed
`https://<host>/<path>` form — it embeds the account name as the URL user.
-/
theorem C4_counterexample :
    sanitizeHTTP "git@bitbucket.org:acct/repo".data =
      .ok ("https://acct@bitbucket.org/acct/repo.git".data,
        "bitbucket.org".data) ∧
    "https://acct@bitbucket.org/acct/repo.git".data ≠
      "https://".data ++ "bitbucket.org".data ++ "/acct/repo".data ++
        ".git".data := by
  decide

/-- Witness for C4 on `git@github.com:org/repo`. -/
theorem C4_scp_rewrite_witness :
    sanitizeHTTP "git@github.com:org/repo".data =
      .ok ("https://github.com/org/repo.git".data, "github.com".data) := by
  have h := (C4_scp_rewrite "git@github.com:org/repo".data
    ⟨[], none, [], "git@github.com:org/repo".data⟩ (by decide) (by decide)
    (by decide)).2 10 (by decide)
  exact h.trans (by decide)

/--
C5 (amended).  For every input whose parsed URL has host `bitbucket.org`,
no user-info and a non-empty path, `sanitizeHTTP` embeds the first path
segment (the account name) as the URL user:
`https://<firstSegment>@bitbucket.org<path>` with the `.git` suffix
ensured, returning host `bitbucket.org`.  (The non-empty-path hypothesis
is forced: on an empty path the code indexes `segments[1]` out of range
and panics instead of returning.)
-/
theorem C5_bitbucket_user (s : Str) (u : URL) (hp : urlParse s = .ok u)
    (hh : u.host = "bitbucket.org".data) (hu : u.user = none)
    (hpe : u.path ≠ []) :
    sanitizeHTTP s = .ok (ensureDotGit ("https://".data ++
      firstSegBy '/' (u.path.drop 1) ++ '@' :: (u.host ++ u.path)),
      "bitbucket.org".data) := by
  have hne : u.host ≠ [] := by
    rw [hh]
    decide
  have hsl := urlParse_path_slash s u hp hne
  obtain ⟨sc, w, h0, p0⟩ := u
  simp only at hh hu hpe hne hsl ⊢
  subst hu
  subst hh
  obtain ⟨t, hpath⟩ : ∃ t, p0 = '/' :: t := by
    rcases hsl with hnil | ht
    · exact absurd hnil hpe
    · exact ht
  subst hpath
  have hscp : scpAdjust ⟨sc, none, "bitbucket.org".data, '/' :: t⟩ s =
      .ok ⟨sc, none, "bitbucket.org".data, '/' :: t⟩ := by
    unfold scpAdjust
    rw [if_neg]
    intro hand
    exact hne hand.1
  simp only [sanitizeHTTP, hp, hscp, buildHTTPS_none, if_pos rfl,
    splitOnChar_slash_get_one]
  rfl

/--
Counterexample to C5 as stated: `https://bitbucket.org` parses with host
`bitbucket.org` and no user-info, yet `sanitizeHTTP` does not return the
claimed user-embedding URL — with the empty path, indexing the first path
segment is a runtime panic.
-/
theorem C5_counterexample :
    urlParse "https://bitbucket.org".data =
      .ok { scheme := "https".data, user := none,
            host := "bitbucket.org".data, path := [] } ∧
    sanitizeHTTP "https://bitbucket.org".data =
      .error (.goPanic "index out of range".data) := by
  decide

/-- Witness for C5 on `https://bitbucket.org/acct/repo`, matching the
spec's worked example. -/
theorem C5_bitbucket_user_witness :
    sanitizeHTTP "https://bitbucket.org/acct/repo".data =
      .ok ("https://acct@bitbucket.org/acct/repo.git".data,
        "bitbucket.org".data) := by
  have h := C5_bitbucket_user "https://bitbucket.org/acct/repo".data
    ⟨"https".data, none, "bitbucket.org".data, "/acct/repo".data⟩
    (by decide) (by decide) (by decide) (by decide)
  exact h.trans (by decide)

/-! ## Claim C1 — authentication forms of parsed descriptors -/

/--
C1.  Every descriptor a successful `parse` returns has a non-empty URL
ending in `.git`; when no key is configured the URL begins `https://` (and
not `git@`), and when a key is configured it begins `git@` (and not
`https://`) — exactly one of the two authentication forms applies, never
both or neither.
-/
theorem C1_auth_forms (ctx : Ctx) (ir : Except Err Unit)
    (pr : Repo → Except Err Unit) (bs : List Block) (repos : List Repo)
    (h : parse ctx ir pr bs = .ok repos) :
    ∀ r ∈ repos, r.url ≠ [] ∧ finishesWith r.url ".git".data = true ∧
      (r.keyPath = [] → beginsWith r.url "https://".data = true ∧
        beginsWith r.url "git@".data = false) ∧
      (r.keyPath ≠ [] → beginsWith r.url "git@".data = true ∧
        beginsWith r.url "https://".data = false) := by
  intro r hr
  obtain ⟨b, _, hpb⟩ := parse_ok_mem ctx ir pr bs repos h r hr
  obtain ⟨r1, u, hst, _, _, hreq, hcase⟩ :=
    parseRepoBlock_invert ctx ir pr b r hpb
  subst hreq
  rcases hcase with ⟨hk, hs⟩ | ⟨hk, hs⟩
  · obtain ⟨T, hT, hfw⟩ := sanitizeHTTP_ok_shape r1.url u hst hs
    refine ⟨?_, hfw, ?_, ?_⟩
    · show u ≠ []
      rw [hT]
      simp
    · intro _
      constructor
      · show beginsWith u "https://".data = true
        rw [hT]
        exact beginsWith_append _ _
      · show beginsWith u "git@".data = false
        rw [hT]
        exact bw_append_https_not_git T
    · intro hk2
      exact absurd hk hk2
  · obtain ⟨T, hT, hfw⟩ := sanitizeGit_ok_shape r1.url u hst hs
    refine ⟨?_, hfw, ?_, ?_⟩
    · show u ≠ []
      rw [hT]
      simp
    · intro hk2
      exact absurd hk2 hk
    · intro _
      constructor
      · show beginsWith u "git@".data = true
        rw [hT]
        exact beginsWith_append _ _
      · show beginsWith u "https://".data = false
        rw [hT]
        exact bw_append_git_not_https T

/-- Witness for C1 on the parse of one plain https block. -/
theorem C1_auth_forms_witness :
    demoRepo8.url ≠ [] ∧ finishesWith demoRepo8.url ".git".data = true ∧
    beginsWith demoRepo8.url "https://".data = true ∧
    beginsWith demoRepo8.url "git@".data = false := by
  have h := C1_auth_forms demoCtx (.ok ()) (fun _ => .ok ())
    [⟨["https://github.com/o/r".data], []⟩] [demoRepo8] (by decide)
    demoRepo8 (by decide)
  exact ⟨h.1, h.2.1, (h.2.2.1 rfl).1, (h.2.2.1 rfl).2⟩

/-! ## Claim C6 — idempotence of the two normalizers on their outputs -/

theorem drop_len_append_add (xs ys : Str) (k : Nat) :
    (xs ++ ys).drop (xs.length + k) = ys.drop k := by
  induction xs with
  | nil => simp
  | cons x xt ih => simp [Nat.succ_add, ih]

theorem sanitizeGit_idem (s u' h' : Str) (hok : sanitizeGit s = .ok (u', h'))
    (hlen : 2 ≤ h'.length) : sanitizeGit u' = .ok (u', h') := by
  obtain ⟨r1, i, _, hbw, hc, hu, hh⟩ := sanitizeGit_invert s u' h' hok
  have hr1 : r1 = "git@".data ++ r1.drop 4 :=
    beginsWith_eq_append r1 "git@".data hbw
  have hd : r1.drop 4 = h' ++ ':' :: (r1.drop 4).drop (i + 1) := by
    rw [hh]
    conv_lhs => rw [← List.take_append_drop i (r1.drop 4)]
    rw [charIdx_drop ':' (r1.drop 4) i hc]
  have hcolon_free : ':' ∉ h' := hh ▸ charIdx_take ':' (r1.drop 4) i hc
  have hu2 : ∃ t2, u' = "git@".data ++ (h' ++ ':' :: t2) := by
    rw [hu]
    unfold ensureDotGit
    split
    · refine ⟨(r1.drop 4).drop (i + 1), ?_⟩
      conv_lhs => rw [hr1, hd]
    · refine ⟨(r1.drop 4).drop (i + 1) ++ ".git".data, ?_⟩
      conv_lhs => rw [hr1, hd]
      simp [List.append_assoc]
  obtain ⟨t2, hu2⟩ := hu2
  have hfin : finishesWith u' ".git".data = true := by
    rw [hu]
    exact ensureDotGit_finishes r1
  have hbw2 : beginsWith u' "git@".data = true := by
    rw [hu2]
    exact beginsWith_append _ _
  have htrim : trimSpace u' = u' := trimSpace_fixed u' hbw2 hfin
  have hidx : charIdx ':' u' = some (("git@".data ++ h').length) := by
    rw [hu2, show "git@".data ++ (h' ++ ':' :: t2) =
      ("git@".data ++ h') ++ ':' :: t2 from by rw [List.append_assoc]]
    refine charIdx_append_self ':' _ t2 ?_
    intro hm
    rcases List.mem_append.mp hm with h1 | h2
    · exact absurd h1 (by decide)
    · exact hcolon_free h2
  have hcond : ¬(beginsWith (trimSpace u') "git@".data = false ∨
      goIndexChar (trimSpace u') ':' < 6) := by
    rw [htrim]
    rintro (hf | hlt)
    · rw [hbw2] at hf
      cases hf
    · unfold goIndexChar at hlt
      rw [hidx] at hlt
      simp only [List.length_append] at hlt
      have : "git@".data.length = 4 := by decide
      rw [this] at hlt
      omega
  have hs1 : sanitizeGitStep1 (trimSpace u') = .ok u' := by
    unfold sanitizeGitStep1
    rw [if_neg hcond, htrim]
  have hdrop : u'.drop 4 = h' ++ ':' :: t2 := by
    rw [hu2]
    exact drop_len_append "git@".data _
  have hc2 : charIdx ':' (u'.drop 4) = some h'.length := by
    rw [hdrop]
    exact charIdx_append_self ':' h' t2 hcolon_free
  simp only [sanitizeGit, hs1, hc2]
  rw [ensureDotGit_of_finishes u' hfin, hdrop, take_len_append]

theorem parseAuthority_none (hst : Str) (hat : '@' ∉ hst) :
    parseAuthority hst = .ok (none, hst) := by
  have hnone : lastIdxOf hst '@' = none := by
    unfold lastIdxOf
    rw [charIdx_eq_none '@' hst.reverse (fun hm => hat (List.mem_reverse.mp hm))]
  simp only [parseAuthority, hnone]

theorem parseAuthority_user (n hst : Str) (hat : '@' ∉ hst) (hcn : ':' ∉ n)
    (hnp : '%' ∉ n) :
    parseAuthority (n ++ '@' :: hst) = .ok (some n, hst) := by
  have hlast : lastIdxOf (n ++ '@' :: hst) '@' = some n.length := by
    unfold lastIdxOf
    rw [List.reverse_append, List.reverse_cons, List.append_assoc,
      List.singleton_append,
      charIdx_append_self '@' hst.reverse n.reverse
        (fun hm => hat (List.mem_reverse.mp hm))]
    simp only [List.length_append, List.length_cons, List.length_reverse,
      Option.some.injEq]
    omega
  simp only [parseAuthority, hlast, take_len_append n ('@' :: hst),
    charIdx_eq_none ':' n hcn, unescape_of_not_mem n hnp]
  exact congrArg (fun z => Except.ok (some n, z)) (drop_len_append_add n _ 1)

/-- Re-parsing a reassembled `https://<authority><path>` URL recovers its
components, provided the authority is free of `/`, `#` and `?` and the path
begins with `/` and is free of `#` and `?`. -/
theorem urlParse_https_generic (A pa : Str) (w : Option Str) (hst : Str)
    (hPA : parseAuthority A = .ok (w, hst))
    (hAslash : '/' ∉ A) (hAhash : '#' ∉ A) (hAq : '?' ∉ A)
    (t : Str) (hpa : pa = '/' :: t) (hpahash : '#' ∉ pa) (hpaq : '?' ∉ pa)
    (hpap : '%' ∉ pa) :
    urlParse ("https://".data ++ (A ++ pa)) =
      .ok { scheme := "https".data, user := w, host := hst, path := pa } := by
  have hShash : '#' ∉ "https://".data ++ (A ++ pa) := by
    intro hm
    rcases List.mem_append.mp hm with h1 | h2
    · exact absurd h1 (by decide)
    · rcases List.mem_append.mp h2 with h3 | h4
      · exact hAhash h3
      · exact hpahash h4
  have e1 : (goSplit ("https://".data ++ (A ++ pa)) '#' true).1 =
      "https://".data ++ (A ++ pa) := by
    rw [goSplit_of_not_mem _ _ _ hShash]
  unfold urlParse
  rw [e1]
  have e2 : urlParseInner ("https://".data ++ (A ++ pa)) =
      afterScheme "https".data ('/' :: '/' :: (A ++ pa)) := by
    unfold urlParseInner
    rw [if_neg (show ¬("https://".data ++ (A ++ pa) = "*".data) from
      fun h => by cases h)]
    exact rfl
  rw [e2]
  have hq : '?' ∉ ('/' :: '/' :: (A ++ pa)) := by
    intro hm
    rcases List.mem_cons.mp hm with h1 | hm2
    · exact absurd h1 (by decide)
    · rcases List.mem_cons.mp hm2 with h1 | hm3
      · exact absurd h1 (by decide)
      · rcases List.mem_append.mp hm3 with h3 | h4
        · exact hAq h3
        · exact hpaq h4
  have e3 : (goSplit ('/' :: '/' :: (A ++ pa)) '?' true).1 =
      '/' :: '/' :: (A ++ pa) := by
    rw [goSplit_of_not_mem _ _ _ hq]
  have hbw1 : beginsWith ('/' :: '/' :: (A ++ pa)) "/".data = true := rfl
  unfold afterScheme
  rw [e3, if_neg (fun hand => by
    rw [hbw1] at hand
    exact absurd hand.1 (by decide))]
  have hbw2 : beginsWith ('/' :: '/' :: (A ++ pa)) "//".data = true := by
    simp [beginsWith, beginsWith_nil]
  unfold authorityAndPath
  rw [if_pos ⟨Or.inl (by decide), hbw2⟩]
  have e4 : ('/' :: '/' :: (A ++ pa)).drop 2 = A ++ pa := rfl
  rw [e4]
  have hc : charIdx '/' (A ++ pa) = some A.length := by
    rw [hpa]
    exact charIdx_append_self '/' A t hAslash
  have e5 : goSplit (A ++ pa) '/' false = (A, pa) := by
    simp [goSplit, hc, take_len_append, drop_len_append]
  rw [e5]
  have hPA2 : parseAuthority ((A, pa) : Str × Str).1 = .ok (w, hst) := hPA
  simp only [hPA2, unescape_of_not_mem pa hpap]
  have e6 : (goSplit ("https://".data ++ (A ++ pa)) '#' true).2 = [] := by
    rw [goSplit_of_not_mem _ _ _ hShash]
  rw [e6]

/-- If a `.git`-suffixed `https://` URL reassembles exactly under
`buildHTTPS`, then `sanitizeHTTP` returns it and its authority host
unchanged. -/
theorem sanitizeHTTP_reparse (A pa : Str) (w : Option Str) (hst : Str)
    (hPA : parseAuthority A = .ok (w, hst))
    (hAslash : '/' ∉ A) (hAhash : '#' ∉ A) (hAq : '?' ∉ A)
    (t : Str) (hpa : pa = '/' :: t) (hpahash : '#' ∉ pa) (hpaq : '?' ∉ pa)
    (hpap : '%' ∉ pa)
    (hrebuild : buildHTTPS
        { scheme := "https".data, user := w, host := hst, path := pa } =
      .ok ("https://".data ++ (A ++ pa)))
    (hfin : finishesWith ("https://".data ++ (A ++ pa)) ".git".data = true) :
    sanitizeHTTP ("https://".data ++ (A ++ pa)) =
      .ok ("https://".data ++ (A ++ pa), hst) := by
  have hp2 := urlParse_https_generic A pa w hst hPA hAslash hAhash hAq
    t hpa hpahash hpaq hpap
  simp only [sanitizeHTTP, hp2]
  have ha2 : scpAdjust
      { scheme := "https".data, user := w, host := hst, path := pa }
      ("https://".data ++ (A ++ pa)) =
      .ok { scheme := "https".data, user := w, host := hst, path := pa } := by
    unfold scpAdjust
    rw [if_neg]
    intro hand
    have h2 : beginsWith pa "git@".data = true := hand.2
    rw [hpa, bw_slash_not_git] at h2
    exact Bool.false_ne_true h2
  simp only [ha2, hrebuild]
  rw [ensureDotGit_of_finishes _ hfin]

theorem sanitizeHTTP_idem_userlike (u1 : URL) (out u' h' n : Str)
    (ho : out = "https://".data ++ n ++ '@' :: (u1.host ++ u1.path))
    (hu : u' = ensureDotGit out) (hh : h' = u1.host)
    (hnc : ':' ∉ n) (hns : '/' ∉ n) (hnh : '#' ∉ n) (hnq : '?' ∉ n)
    (hnp : '%' ∉ n)
    (hhs : '/' ∉ u1.host) (hha : '@' ∉ u1.host)
    (hhh : '#' ∉ u1.host) (hhq : '?' ∉ u1.host)
    (hph : '#' ∉ u1.path) (hpq : '?' ∉ u1.path) (hpp : '%' ∉ u1.path)
    (hps : u1.path = '/' :: u1.path.drop 1) :
    sanitizeHTTP u' = .ok (u', h') := by
  have hex : ∃ pa', u' = "https://".data ++ ((n ++ '@' :: u1.host) ++ pa') ∧
      (pa' = u1.path ∨ pa' = u1.path ++ ".git".data) := by
    rw [hu]
    unfold ensureDotGit
    split
    · refine ⟨u1.path, ?_, Or.inl rfl⟩
      rw [ho]
      simp [List.append_assoc]
    · refine ⟨u1.path ++ ".git".data, ?_, Or.inr rfl⟩
      rw [ho]
      simp [List.append_assoc]
  obtain ⟨pa', hueq, hcases⟩ := hex
  have hshape : ∃ t2, pa' = '/' :: t2 := by
    rcases hcases with rfl | rfl
    · exact ⟨u1.path.drop 1, hps⟩
    · refine ⟨u1.path.drop 1 ++ ".git".data, ?_⟩
      conv_lhs => rw [hps]
      rfl
  obtain ⟨t2, hshape⟩ := hshape
  have hpah : ('#' ∉ pa' ∧ '?' ∉ pa') ∧ '%' ∉ pa' := by
    rcases hcases with rfl | rfl
    · exact ⟨⟨hph, hpq⟩, hpp⟩
    · refine ⟨⟨?_, ?_⟩, ?_⟩
      · intro hm
        rcases List.mem_append.mp hm with h1 | h2
        · exact hph h1
        · exact absurd h2 (by decide)
      · intro hm
        rcases List.mem_append.mp hm with h1 | h2
        · exact hpq h1
        · exact absurd h2 (by decide)
      · intro hm
        rcases List.mem_append.mp hm with h1 | h2
        · exact hpp h1
        · exact absurd h2 (by decide)
  have hAslash : '/' ∉ (n ++ '@' :: u1.host) := by
    intro hm
    rcases List.mem_append.mp hm with h1 | h2
    · exact hns h1
    · rcases List.mem_cons.mp h2 with h3 | h4
      · exact absurd h3 (by decide)
      · exact hhs h4
  have hAhash : '#' ∉ (n ++ '@' :: u1.host) := by
    intro hm
    rcases List.mem_append.mp hm with h1 | h2
    · exact hnh h1
    · rcases List.mem_cons.mp h2 with h3 | h4
      · exact absurd h3 (by decide)
      · exact hhh h4
  have hAq : '?' ∉ (n ++ '@' :: u1.host) := by
    intro hm
    rcases List.mem_append.mp hm with h1 | h2
    · exact hnq h1
    · rcases List.mem_cons.mp h2 with h3 | h4
      · exact absurd h3 (by decide)
      · exact hhq h4
  have hPA : parseAuthority (n ++ '@' :: u1.host) = .ok (some n, u1.host) :=
    parseAuthority_user n u1.host hha hnc hnp
  have hrb : buildHTTPS
      { scheme := "https".data, user := some n, host := u1.host,
        path := pa' } =
      .ok ("https://".data ++ ((n ++ '@' :: u1.host) ++ pa')) := by
    rw [buildHTTPS_some]
    exact congrArg Except.ok (by simp [List.append_assoc])
  have hfin : finishesWith
      ("https://".data ++ ((n ++ '@' :: u1.host) ++ pa')) ".git".data =
      true := by
    rw [← hueq, hu]
    exact ensureDotGit_finishes out
  rw [hueq, hh]
  exact sanitizeHTTP_reparse (n ++ '@' :: u1.host) pa' (some n) u1.host hPA
    hAslash hAhash hAq t2 hshape hpah.1.1 hpah.1.2 hpah.2 hrb hfin

theorem sanitizeHTTP_idem_plainlike (u1 : URL) (out u' h' : Str)
    (ho : out = "https://".data ++ u1.host ++ u1.path)
    (hu : u' = ensureDotGit out) (hh : h' = u1.host)
    (hbb : u1.host ≠ "bitbucket.org".data)
    (hhs : '/' ∉ u1.host) (hha : '@' ∉ u1.host)
    (hhh : '#' ∉ u1.host) (hhq : '?' ∉ u1.host)
    (hph : '#' ∉ u1.path) (hpq : '?' ∉ u1.path) (hpp : '%' ∉ u1.path)
    (hps : u1.path = '/' :: u1.path.drop 1) :
    sanitizeHTTP u' = .ok (u', h') := by
  have hex : ∃ pa', u' = "https://".data ++ (u1.host ++ pa') ∧
      (pa' = u1.path ∨ pa' = u1.path ++ ".git".data) := by
    rw [hu]
    unfold ensureDotGit
    split
    · refine ⟨u1.path, ?_, Or.inl rfl⟩
      rw [ho]
      simp [List.append_assoc]
    · refine ⟨u1.path ++ ".git".data, ?_, Or.inr rfl⟩
      rw [ho]
      simp [List.append_assoc]
  obtain ⟨pa', hueq, hcases⟩ := hex
  have hshape : ∃ t2, pa' = '/' :: t2 := by
    rcases hcases with rfl | rfl
    · exact ⟨u1.path.drop 1, hps⟩
    · refine ⟨u1.path.drop 1 ++ ".git".data, ?_⟩
      conv_lhs => rw [hps]
      rfl
  obtain ⟨t2, hshape⟩ := hshape
  have hpah : ('#' ∉ pa' ∧ '?' ∉ pa') ∧ '%' ∉ pa' := by
    rcases hcases with rfl | rfl
    · exact ⟨⟨hph, hpq⟩, hpp⟩
    · refine ⟨⟨?_, ?_⟩, ?_⟩
      · intro hm
        rcases List.mem_append.mp hm with h1 | h2
        · exact hph h1
        · exact absurd h2 (by decide)
      · intro hm
        rcases List.mem_append.mp hm with h1 | h2
        · exact hpq h1
        · exact absurd h2 (by decide)
      · intro hm
        rcases List.mem_append.mp hm with h1 | h2
        · exact hpp h1
        · exact absurd h2 (by decide)
  have hPA : parseAuthority u1.host = .ok (none, u1.host) :=
    parseAuthority_none u1.host hha
  have hrb : buildHTTPS
      { scheme := "https".data, user := none, host := u1.host,
        path := pa' } =
      .ok ("https://".data ++ (u1.host ++ pa')) := by
    rw [buildHTTPS_none, if_neg hbb]
    exact congrArg Except.ok (by simp [List.append_assoc])
  have hfin : finishesWith
      ("https://".data ++ (u1.host ++ pa')) ".git".data = true := by
    rw [← hueq, hu]
    exact ensureDotGit_finishes out
  rw [hueq, hh]
  exact sanitizeHTTP_reparse u1.host pa' none u1.host hPA
    hhs hhh hhq t2 hshape hpah.1.1 hpah.1.2 hpah.2 hrb hfin

/-- The user name `buildHTTPS` embeds into its output: the URL's own user
if one is present, else — for `bitbucket.org` — the first path segment. -/
def embeddedUser (u : URL) : Option Str :=
  match u.user with
  | some n => some n
  | none =>
    if u.host = "bitbucket.org".data then (splitOnChar u.path '/').get? 1
    else none

theorem sanitizeHTTP_idem (s u' h' : Str) (u0 u1 : URL)
    (hok : sanitizeHTTP s = .ok (u', h'))
    (hp : urlParse s = .ok u0) (ha : scpAdjust u0 s = .ok u1)
    (hsl : beginsWith u1.path "/".data = true)
    (hhs : '/' ∉ u1.host) (hha : '@' ∉ u1.host)
    (hhh : '#' ∉ u1.host) (hhq : '?' ∉ u1.host)
    (hph : '#' ∉ u1.path) (hpq : '?' ∉ u1.path) (hpp : '%' ∉ u1.path)
    (hname : ∀ n, embeddedUser u1 = some n →
      ':' ∉ n ∧ '/' ∉ n ∧ '#' ∉ n ∧ '?' ∉ n ∧ '%' ∉ n) :
    sanitizeHTTP u' = .ok (u', h') := by
  obtain ⟨u0x, u1x, out, hpx, hax, hb, hu, hh⟩ :=
    sanitizeHTTP_invert s u' h' hok
  have e0 : u0x = u0 := by
    rw [hpx] at hp
    injection hp
  rw [e0] at hpx hax
  have e1 : u1x = u1 := by
    rw [hax] at ha
    injection ha
  rw [e1] at hax hb hh
  have hps : u1.path = '/' :: u1.path.drop 1 :=
    beginsWith_eq_append u1.path "/".data hsl
  rcases buildHTTPS_cases u1 out hb with ⟨n, husr1, ho⟩ |
    ⟨husr1, hbb, seg, hseg, ho⟩ | ⟨husr1, hbb, ho⟩
  · have hemb : embeddedUser u1 = some n := by
      simp only [embeddedUser, husr1]
    obtain ⟨hnc, hns, hnh, hnq, hnp⟩ := hname n hemb
    exact sanitizeHTTP_idem_userlike u1 out u' h' n ho hu hh hnc hns hnh hnq
      hnp hhs hha hhh hhq hph hpq hpp hps
  · have hemb : embeddedUser u1 = some seg := by
      simp only [embeddedUser, husr1]
      rw [if_pos hbb, hseg]
    obtain ⟨hnc, hns, hnh, hnq, hnp⟩ := hname seg hemb
    exact sanitizeHTTP_idem_userlike u1 out u' h' seg ho hu hh hnc hns hnh hnq
      hnp hhs hha hhh hhq hph hpq hpp hps
  · exact sanitizeHTTP_idem_plainlike u1 out u' h' ho hu hh hbb
      hhs hha hhh hhq hph hpq hpp hps

/--
C6 counterexample.  The claimed unconditional idempotence fails, and the
restrictions of the amended statement are forced by concrete inputs:
`sanitizeHTTP` on `https://github.com` yields `https://github.com.git` with
host `github.com`, but re-application returns host `github.com.git` (the
empty path lets the host absorb the suffix); `sanitizeGit` on `https://a/b`
yields `git@a:b.git` with host `a`, and re-application fails outright (the
colon lands at index 5, below the `git@a:` threshold, and re-parsing
`git@a:b.git` as http fails); an SCP input `git@a/b:c` gives `sanitizeHTTP`
host `a/b` containing `/`, and re-application splits at the `/` and returns
host `a`; `git@a@b:c` gives host `a@b` containing `@`, and re-application
returns host `b`; `https://bitbucket.org/a:b/c` embeds the first path
segment `a:b` containing `:` as user, which re-application truncates to
`a`, changing the URL; `https://a%2Fb@host/p` decodes the user to `a/b`
containing `/`, and re-application splits the authority at that `/` and
returns host `a`; and paths whose decoding leaves a `#` or a `%`
(`https://h/a%23b`, `https://h/a%2525`) change again on re-application,
when the rebuilt URL is split at the `#` or decoded a second time.
-/
theorem C6_counterexample :
    (sanitizeHTTP "https://github.com".data =
        .ok ("https://github.com.git".data, "github.com".data) ∧
      sanitizeHTTP "https://github.com.git".data =
        .ok ("https://github.com.git".data, "github.com.git".data)) ∧
    (sanitizeGit "https://a/b".data = .ok ("git@a:b.git".data, "a".data) ∧
      sanitizeGit "git@a:b.git".data =
        .error (.invalidGitURL "git@a:b.git".data)) ∧
    (sanitizeHTTP "git@a/b:c".data =
        .ok ("https://a/b/c.git".data, "a/b".data) ∧
      sanitizeHTTP "https://a/b/c.git".data =
        .ok ("https://a/b/c.git".data, "a".data)) ∧
    (sanitizeHTTP "git@a@b:c".data =
        .ok ("https://a@b/c.git".data, "a@b".data) ∧
      sanitizeHTTP "https://a@b/c.git".data =
        .ok ("https://a@b/c.git".data, "b".data)) ∧
    (sanitizeHTTP "https://bitbucket.org/a:b/c".data =
        .ok ("https://a:b@bitbucket.org/a:b/c.git".data,
          "bitbucket.org".data) ∧
      sanitizeHTTP "https://a:b@bitbucket.org/a:b/c.git".data =
        .ok ("https://a@bitbucket.org/a:b/c.git".data,
          "bitbucket.org".data)) ∧
    (sanitizeHTTP "https://a%2Fb@host/p".data =
        .ok ("https://a/b@host/p.git".data, "host".data) ∧
      sanitizeHTTP "https://a/b@host/p.git".data =
        .ok ("https://a/b@host/p.git".data, "a".data)) ∧
    (sanitizeHTTP "https://h/a%23b".data =
        .ok ("https://h/a#b.git".data, "h".data) ∧
      sanitizeHTTP "https://h/a#b.git".data =
        .ok ("https://h/a.git".data, "h".data)) ∧
    (sanitizeHTTP "https://h/a%2525".data =
        .ok ("https://h/a%25.git".data, "h".data) ∧
      sanitizeHTTP "https://h/a%25.git".data =
        .ok ("https://h/a%.git".data, "h".data)) :=
  ⟨⟨by decide, by decide⟩, ⟨by decide, by decide⟩, ⟨by decide, by decide⟩,
    ⟨by decide, by decide⟩, ⟨by decide, by decide⟩, ⟨by decide, by decide⟩,
    ⟨by decide, by decide⟩, ⟨by decide, by decide⟩⟩

/--
C6 (amended).  Each normalizer is idempotent on its own successful output
under the conditions that the counterexamples show to be necessary:
`sanitizeGit`'s output maps to itself whenever the extracted host has at
least two characters (so the colon stays at or beyond the `git@a:`
threshold); `sanitizeHTTP`'s output maps to itself (same URL, same host)
whenever the normalized URL's path begins with `/` (in particular it is
non-empty) and contains no `#`, `?` or `%`, its host contains none of `/`,
`@`, `#`, `?`, and the user name that `buildHTTPS` embeds — the decoded
URL user or, for `bitbucket.org`, the first path segment — contains none
of `:`, `/`, `#`, `?`, `%`.  In all these cases the `.git` suffix is
appended exactly once.
-/
theorem C6_idempotence :
    (∀ s u' h', sanitizeGit s = .ok (u', h') → 2 ≤ h'.length →
      sanitizeGit u' = .ok (u', h')) ∧
    (∀ s u' h' u0 u1, sanitizeHTTP s = .ok (u', h') →
      urlParse s = .ok u0 → scpAdjust u0 s = .ok u1 →
      beginsWith u1.path "/".data = true →
      '/' ∉ u1.host → '@' ∉ u1.host → '#' ∉ u1.host → '?' ∉ u1.host →
      '#' ∉ u1.path → '?' ∉ u1.path → '%' ∉ u1.path →
      (∀ n, embeddedUser u1 = some n →
        ':' ∉ n ∧ '/' ∉ n ∧ '#' ∉ n ∧ '?' ∉ n ∧ '%' ∉ n) →
      sanitizeHTTP u' = .ok (u', h')) :=
  ⟨sanitizeGit_idem, fun s u' h' u0 u1 hok hp ha hsl hhs hha hhh hhq hph hpq
      hpp hname =>
    sanitizeHTTP_idem s u' h' u0 u1 hok hp ha hsl hhs hha hhh hhq hph hpq
      hpp hname⟩

theorem C6_idempotence_witness :
    sanitizeGit "git@github.com:org/repo.git".data =
        .ok ("git@github.com:org/repo.git".data, "github.com".data) ∧
    sanitizeHTTP "https://github.com/org/repo.git".data =
        .ok ("https://github.com/org/repo.git".data, "github.com".data) :=
  ⟨C6_idempotence.1 "git@github.com:org/repo".data
      "git@github.com:org/repo.git".data "github.com".data
      (by decide) (by decide),
   C6_idempotence.2 "https://github.com/org/repo".data
      "https://github.com/org/repo.git".data "github.com".data
      ⟨"https".data, none, "github.com".data, "/org/repo".data⟩
      ⟨"https".data, none, "github.com".data, "/org/repo".data⟩
      (by decide) (by decide) (by decide) (by decide) (by decide) (by decide)
      (by decide) (by decide) (by decide) (by decide) (by decide)
      (fun n hn => Option.noConfusion hn)⟩

end CaddyGit
